import Mathlib

/-!
# Verification of the Tic-Tac-Toe core (`src/script.js`)

Shallow embedding of the board evaluator (`evaluateBoard`), the move
selector (`aiMove`'s choice of index) and the minimax search with
alpha-beta pruning (`minimax`) of the repository, together with proofs
of the specified properties.

Modelling conventions:
* a JS cell value (`null`, `'X'`, `'O'`) is `Option Mark`;
* the board (a JS array of 9 cells) is a `List Cell`; `cellAt b i`
  models `b[i]` (out-of-range reads give `none`, like `undefined`);
* JS `Infinity` / `-Infinity` only ever meet `Math.max`/`Math.min`/`<=`
  against the scores `-10`, `0`, `10`, so the order embedding into `Int`
  sending `-Infinity` to `-1000` and `Infinity` to `1000` preserves the
  computation exactly (proved below: all reachable scores lie in
  `[-10, 10]`);
* `minimax`'s result object `{ score, index }` is `Int × Option Nat`
  (`index` is `none` when the JS object carries no index / `undefined`);
* the recursion of `minimax` is expressed with a fuel parameter; fuel 9
  is enough for every 9-cell board and the result is proved independent
  of any fuel `≥ 9` (the termination claim);
* `minimax`'s in-place mutation (`b[idx] = player` … `b[idx] = null`) is
  modelled functionally (`b.set idx (some player)`) in `minimaxAux`, and
  additionally state-threaded in `minimaxMut`, which passes the mutated
  buffer through every step exactly as the JS code does and returns the
  final buffer, so that the restore-the-board claim is about the code's
  actual mutation discipline.
-/

/-- The two marks, JS strings `'X'` and `'O'`. -/
inductive Mark where
  | X : Mark
  | O : Mark
deriving DecidableEq, Repr

/-- `player === 'X' ? 'O' : 'X'`. -/
def Mark.other : Mark → Mark
  | Mark.X => Mark.O
  | Mark.O => Mark.X

/-- A cell: `null`, `'X'` or `'O'`. -/
def Cell : Type := Option Mark
deriving instance DecidableEq, Repr for Cell

/-- The board: a JS array of 9 cells (we carry the length as a
hypothesis where it matters). -/
def Board : Type := List Cell
deriving instance DecidableEq, Repr for Board

/-- `b[i]`: reading a JS array; out of range gives `undefined`,
modelled as `none`. -/
def cellAt (b : Board) (i : Nat) : Cell := b.getD i none

/-- A winning line, the JS triple `[a, b, c]`. -/
def Line : Type := Nat × Nat × Nat
deriving instance DecidableEq, Repr for Line

/-- The 8 fixed lines, in source order: rows, columns, diagonals
(`WINS` in `script.js`). -/
def WINS : List Line :=
  [(0,1,2), (3,4,5), (6,7,8),
   (0,3,6), (1,4,7), (2,5,8),
   (0,4,8), (2,4,6)]

/-- The test `b[a] && b[a] === b[b2] && b[a] === b[c]` of
`evaluateBoard`, returning the winning mark `b[a]` when it succeeds. -/
def lineWinner (b : Board) (l : Line) : Option Mark :=
  match cellAt b l.1 with
  | none => none
  | some m =>
      if cellAt b l.2.1 = some m ∧ cellAt b l.2.2 = some m then some m
      else none

/-- Outcome of evaluating a board: `{winner, line}`, `{draw: true}` or
`{ongoing: true}`. -/
inductive Outcome where
  | won : Mark → Line → Outcome
  | draw : Outcome
  | ongoing : Outcome
deriving DecidableEq, Repr

/-- The `for (const line of WINS)` loop of `evaluateBoard` with its
early `return`. -/
def evalLines (b : Board) : List Line → Option (Mark × Line)
  | [] => none
  | l :: rest =>
      match lineWinner b l with
      | some m => some (m, l)
      | none => evalLines b rest

/-- `evaluateBoard(b)` from `script.js`: first won line in `WINS`
order, else draw when every cell is truthy, else ongoing. -/
def evaluateBoard (b : Board) : Outcome :=
  match evalLines b WINS with
  | some (m, l) => Outcome.won m l
  | none => if b.all (fun c => c.isSome) then Outcome.draw else Outcome.ongoing

/-- Helper for `emptyCells`, tracking the running index of
`b.map((v,i) => v ? null : i)`. -/
def emptyCellsAux : Nat → List Cell → List Nat
  | _, [] => []
  | i, c :: rest =>
      match c with
      | some _ => emptyCellsAux (i + 1) rest
      | none => i :: emptyCellsAux (i + 1) rest

/-- `b.map((v,i) => v ? null : i).filter(i => i !== null)`: the indices
of the empty cells, in increasing order. -/
def emptyCells (b : Board) : List Nat := emptyCellsAux 0 b

/-- `-Infinity` as it is used by the search: an order bottom for the
scores `-10`, `0`, `10`. -/
def NEG_INF : Int := -1000

/-- `Infinity` as it is used by the search. -/
def POS_INF : Int := 1000

/-- One run of `minimax`'s `for (const idx of empty)` loop body over
the remaining empty indices, carrying the running `best` and `alpha`,
`beta`; `rec` is the recursive call on the board with the trial mark
placed (board restoration is implicit in the functional embedding).
Covers both the maximizing branch (`player === aiMark`) and the
minimizing one, and the `if (beta <= alpha) break`. -/
def mmLoop (rec : Board → Int → Int → Int × Option Nat)
    (isMax : Bool) (b : Board) (player : Mark) :
    List Nat → (Int × Option Nat) → Int → Int → Int × Option Nat
  | [], best, _, _ => best
  | idx :: rest, best, alpha, beta =>
      let s := (rec (b.set idx (some player)) alpha beta).1
      if isMax then
        let best2 := if s > best.1 then (s, some idx) else best
        let alpha2 := max alpha s
        if beta ≤ alpha2 then best2
        else mmLoop rec isMax b player rest best2 alpha2 beta
      else
        let best2 := if s < best.1 then (s, some idx) else best
        let beta2 := min beta s
        if beta2 ≤ alpha then best2
        else mmLoop rec isMax b player rest best2 alpha beta2

/-- `minimax(b, player, alpha, beta)` from `script.js`, with the
computer's mark `aiM` (the global `aiMark`) and a fuel parameter for
the recursion (fuel 9 suffices for 9-cell boards, proved below). -/
def minimaxAux (fuel : Nat) (aiM : Mark) (b : Board) (player : Mark)
    (alpha beta : Int) : Int × Option Nat :=
  match evaluateBoard b with
      | Outcome.won m _ => if m = aiM then (10, none) else (-10, none)
      | Outcome.draw => (0, none)
      | Outcome.ongoing =>
          match fuel with
          | 0 => (0, none)
          | fuel + 1 =>
              let empty := emptyCells b
              mmLoop
                (fun b2 a2 b3 => minimaxAux fuel aiM b2 player.other a2 b3)
                (player = aiM) b player empty
                ((if player = aiM then NEG_INF else POS_INF), empty.head?)
                alpha beta

/-- The preference order `[4,0,2,6,8,1,3,5,7]` of the opening
shortcut. -/
def openingOrder : List Nat := [4, 0, 2, 6, 8, 1, 3, 5, 7]

/-- The move choice of `aiMove()`: the opening shortcut
(`board.filter(Boolean).length <= 1`) returns
`[4,0,2,6,8,1,3,5,7].find(i => !board[i])`, otherwise the `index` of
`minimax(board, aiMark, -Infinity, Infinity)`. `none` models the JS
`undefined` that would arise on a contract-violating call. -/
def selectMove (b : Board) (aiM : Mark) : Option Nat :=
  if (b.filter (fun c => c.isSome)).length ≤ 1 then
    openingOrder.find? (fun i => (cellAt b i).isNone)
  else
    (minimaxAux 9 aiM b aiM NEG_INF POS_INF).2

/-- The empty 9-cell board. -/
def emptyBoard : Board :=
  [none, none, none, none, none, none, none, none, none]

/-- The number of non-empty cells: `board.filter(Boolean).length`. -/
def marksCount (b : Board) : Nat := (b.filter (fun c => c.isSome)).length

/-- The loop of `minimax` with the `if (beta <= alpha) break` line
removed and everything else unchanged (`alpha` and `beta` are still
updated and passed on, they just never cut the loop). -/
def mmLoopNP (rec : Board → Int → Int → Int × Option Nat)
    (isMax : Bool) (b : Board) (player : Mark) :
    List Nat → (Int × Option Nat) → Int → Int → Int × Option Nat
  | [], best, _, _ => best
  | idx :: rest, best, alpha, beta =>
      let s := (rec (b.set idx (some player)) alpha beta).1
      if isMax then
        let best2 := if s > best.1 then (s, some idx) else best
        let alpha2 := max alpha s
        mmLoopNP rec isMax b player rest best2 alpha2 beta
      else
        let best2 := if s < best.1 then (s, some idx) else best
        let beta2 := min beta s
        mmLoopNP rec isMax b player rest best2 alpha beta2

/-- `minimax` without the pruning cutoff: identical to `minimaxAux`
except that the loop never breaks on `beta <= alpha`. -/
def minimaxNP (fuel : Nat) (aiM : Mark) (b : Board) (player : Mark)
    (alpha beta : Int) : Int × Option Nat :=
  match evaluateBoard b with
      | Outcome.won m _ => if m = aiM then (10, none) else (-10, none)
      | Outcome.draw => (0, none)
      | Outcome.ongoing =>
          match fuel with
          | 0 => (0, none)
          | fuel + 1 =>
              let empty := emptyCells b
              mmLoopNP
                (fun b2 a2 b3 => minimaxNP fuel aiM b2 player.other a2 b3)
                (player = aiM) b player empty
                ((if player = aiM then NEG_INF else POS_INF), empty.head?)
                alpha beta

/-- Reference accumulation of child scores: a fold of `max` (maximizing
node) or `min` (minimizing node) over a list of move indices. -/
def valLoop (w : Nat → Int) (isMax : Bool) : List Nat → Int → Int
  | [], acc => acc
  | i :: rest, acc =>
      valLoop w isMax rest (if isMax then max acc (w i) else min acc (w i))

/-- The game-theoretic minimax value of a board for the computer mark
`aiM` with `player` to move: terminal scores as in `minimax`, and at
interior nodes the plain max/min over the empty cells, with no
alpha-beta bookkeeping at all. -/
def mmVal (fuel : Nat) (aiM : Mark) (b : Board) (player : Mark) : Int :=
  match evaluateBoard b with
      | Outcome.won m _ => if m = aiM then 10 else -10
      | Outcome.draw => 0
      | Outcome.ongoing =>
          match fuel with
          | 0 => 0
          | fuel + 1 =>
              valLoop (fun i => mmVal fuel aiM (b.set i (some player)) player.other)
                (player = aiM) (emptyCells b)
                (if player = aiM then NEG_INF else POS_INF)

/-- The loop of `minimax` with the board threaded through explicitly:
`b[idx] = player` before the recursive call and `b[idx] = null` after
it, as in the JS source; the (possibly mutated) buffer is part of the
result, also when the loop exits through the pruning break. -/
def mmLoopMut (rec : Board → Int → Int → (Int × Option Nat) × Board)
    (isMax : Bool) (player : Mark) :
    List Nat → Board → (Int × Option Nat) → Int → Int →
      (Int × Option Nat) × Board
  | [], b, best, _, _ => (best, b)
  | idx :: rest, b, best, alpha, beta =>
      let r := rec (b.set idx (some player)) alpha beta
      let b2 := r.2.set idx none
      let s := r.1.1
      if isMax then
        let best2 := if s > best.1 then (s, some idx) else best
        let alpha2 := max alpha s
        if beta ≤ alpha2 then (best2, b2)
        else mmLoopMut rec isMax player rest b2 best2 alpha2 beta
      else
        let best2 := if s < best.1 then (s, some idx) else best
        let beta2 := min beta s
        if beta2 ≤ alpha then (best2, b2)
        else mmLoopMut rec isMax player rest b2 best2 alpha beta2

/-- `minimax` with the mutated board buffer made explicit: the search
receives the buffer, places and removes trial marks on it, and returns
it alongside the result. -/
def minimaxMut (fuel : Nat) (aiM : Mark) (b : Board) (player : Mark)
    (alpha beta : Int) : (Int × Option Nat) × Board :=
  match evaluateBoard b with
      | Outcome.won m _ => (if m = aiM then ((10 : Int), (none : Option Nat)) else (-10, none), b)
      | Outcome.draw => ((0, none), b)
      | Outcome.ongoing =>
          match fuel with
          | 0 => ((0, none), b)
          | fuel + 1 =>
              let empty := emptyCells b
              mmLoopMut
                (fun b2 a2 b3 => minimaxMut fuel aiM b2 player.other a2 b3)
                (player = aiM) player empty b
                ((if player = aiM then NEG_INF else POS_INF), empty.head?)
                alpha beta

/-- Move candidates for the certificate checker: the empty cells
listed in the strong-first order `[4,0,2,6,8,1,3,5,7]`. -/
def certExplore (b : Board) : List Nat :=
  openingOrder.filter (fun i => decide (cellAt b i = none))

/-- Certificate checker for "the player `aiM` forces a win or draw from
`b` with `cur` to move": some good move at `aiM`'s turns (tried in the
strong-first order, which only affects evaluation speed), all replies
at the opponent's turns. Its truth is established below by evaluation
on a handful of opening positions, and its soundness with respect to
`mmVal` turns those evaluations into exact value bounds. -/
def certSafe : Nat → Mark → Board → Mark → Bool
  | 0, aiM, b, _ =>
      match evaluateBoard b with
      | Outcome.won m _ => m = aiM
      | Outcome.draw => true
      | Outcome.ongoing => false
  | fuel + 1, aiM, b, cur =>
      match evaluateBoard b with
      | Outcome.won m _ => m = aiM
      | Outcome.draw => true
      | Outcome.ongoing =>
          if cur = aiM then
            (certExplore b).any
              (fun i => certSafe fuel aiM (b.set i (some cur)) cur.other)
          else
            (emptyCells b).all
              (fun i => certSafe fuel aiM (b.set i (some cur)) cur.other)

/-- The games in which every computer move is chosen by the move
selector and the opponent plays arbitrary legal moves: `AIGame aiM b
cur` holds when the position `b` with `cur` to move is reachable from
the empty board (X always starts) under that discipline. -/
inductive AIGame (aiM : Mark) : Board → Mark → Prop where
  | init : AIGame aiM emptyBoard Mark.X
  | aiStep {b : Board} {i : Nat} :
      AIGame aiM b aiM → evaluateBoard b = Outcome.ongoing →
      selectMove b aiM = some i →
      AIGame aiM (b.set i (some aiM)) aiM.other
  | oppStep {b : Board} {cur : Mark} {i : Nat} :
      AIGame aiM b cur → cur ≠ aiM → evaluateBoard b = Outcome.ongoing →
      i ∈ emptyCells b →
      AIGame aiM (b.set i (some cur)) cur.other

/-- Spec-side reading of a completed line: the three cells of `l` all
hold the mark `m`. -/
def lineFilledWith (b : Board) (l : Line) (m : Mark) : Prop :=
  cellAt b l.1 = some m ∧ cellAt b l.2.1 = some m ∧ cellAt b l.2.2 = some m

instance (b : Board) (l : Line) (m : Mark) : Decidable (lineFilledWith b l m) := by
  unfold lineFilledWith
  infer_instance

instance (b : Board) (l : Line) : Decidable (∃ m, lineFilledWith b l m) := by
  unfold lineFilledWith
  exact decidable_of_iff
    (cellAt b l.1 = some Mark.X ∧ cellAt b l.2.1 = some Mark.X ∧ cellAt b l.2.2 = some Mark.X
      ∨ cellAt b l.1 = some Mark.O ∧ cellAt b l.2.1 = some Mark.O ∧ cellAt b l.2.2 = some Mark.O)
    (by
      constructor
      · rintro (h | h)
        · exact ⟨Mark.X, h⟩
        · exact ⟨Mark.O, h⟩
      · rintro ⟨m, h⟩
        cases m
        · exact Or.inl h
        · exact Or.inr h)

/-- Spec-side first completed line: the first element of `WINS` (rows,
then columns, then diagonals) whose three cells hold one identical
mark. -/
def specFirstWin (b : Board) : Option Line :=
  WINS.find? (fun l => decide (∃ m, lineFilledWith b l m))

/-- Spec-side opening move: the first index of the preference order
`[4,0,2,6,8,1,3,5,7]` whose cell is empty. -/
def firstEmptyInPref (b : Board) : Option Nat :=
  openingOrder.find? (fun i => decide (cellAt b i = none))

/-! ## Basic facts about cells, boards and `emptyCells` -/

theorem cellAt_cons_zero (c : Cell) (b : List Cell) : cellAt (c :: b) 0 = c := rfl

theorem cellAt_cons_succ (c : Cell) (b : List Cell) (i : Nat) :
    cellAt (c :: b) (i + 1) = cellAt b i := rfl

theorem mem_emptyCellsAux (b : List Cell) :
    ∀ n i, i ∈ emptyCellsAux n b ↔ ∃ j, i = n + j ∧ j < b.length ∧ cellAt b j = none := by
  induction b with
  | nil =>
      intro n i
      simp [emptyCellsAux]
  | cons c rest ih =>
      intro n i
      cases c with
      | some m =>
          simp only [emptyCellsAux]
          rw [ih (n + 1) i]
          constructor
          · rintro ⟨j, hj, hlt, hc⟩
            exact ⟨j + 1, by omega, by simpa using hlt, by simpa [cellAt_cons_succ] using hc⟩
          · rintro ⟨j, hj, hlt, hc⟩
            cases j with
            | zero => simp [cellAt_cons_zero] at hc
            | succ j2 =>
                exact ⟨j2, by omega, by simpa using hlt, by simpa [cellAt_cons_succ] using hc⟩
      | none =>
          simp only [emptyCellsAux, List.mem_cons]
          rw [ih (n + 1) i]
          constructor
          · rintro (h | ⟨j, hj, hlt, hc⟩)
            · exact ⟨0, by omega, by simp, by simp [h, cellAt_cons_zero]⟩
            · exact ⟨j + 1, by omega, by simpa using hlt, by simpa [cellAt_cons_succ] using hc⟩
          · rintro ⟨j, hj, hlt, hc⟩
            cases j with
            | zero => exact Or.inl (by omega)
            | succ j2 =>
                exact Or.inr ⟨j2, by omega, by simpa using hlt,
                  by simpa [cellAt_cons_succ] using hc⟩

theorem mem_emptyCells {b : Board} {i : Nat} (h : i ∈ emptyCells b) :
    i < b.length ∧ cellAt b i = none := by
  have := (mem_emptyCellsAux b 0 i).mp h
  rcases this with ⟨j, hj, hlt, hc⟩
  have : i = j := by omega
  subst this
  exact ⟨hlt, hc⟩

theorem emptyCellsAux_eq_nil (b : List Cell) :
    ∀ n, emptyCellsAux n b = [] ↔ b.all (fun c => c.isSome) = true := by
  induction b with
  | nil => intro n; simp [emptyCellsAux]
  | cons c rest ih =>
      intro n
      cases c with
      | some m => simpa [emptyCellsAux] using ih (n + 1)
      | none => simp [emptyCellsAux]

theorem length_emptyCellsAux_le (b : List Cell) :
    ∀ n, (emptyCellsAux n b).length ≤ b.length := by
  induction b with
  | nil => intro n; simp [emptyCellsAux]
  | cons c rest ih =>
      intro n
      cases c with
      | some m =>
          simpa [emptyCellsAux] using Nat.le_succ_of_le (ih (n + 1))
      | none => simpa [emptyCellsAux] using ih (n + 1)

theorem length_emptyCells_le (b : Board) : (emptyCells b).length ≤ b.length :=
  length_emptyCellsAux_le b 0

theorem length_emptyCellsAux_set (b : List Cell) :
    ∀ n i m, cellAt b i = none → i < b.length →
      (emptyCellsAux n (b.set i (some m))).length + 1 = (emptyCellsAux n b).length := by
  induction b with
  | nil => intro n i m _ h; simp at h
  | cons c rest ih =>
      intro n i m hc hlt
      cases i with
      | zero =>
          rw [cellAt_cons_zero] at hc
          subst hc
          simp [emptyCellsAux]
      | succ i2 =>
          rw [cellAt_cons_succ] at hc
          have hlt2 : i2 < rest.length := by simpa using hlt
          cases c with
          | some m2 => simpa [emptyCellsAux] using ih (n + 1) i2 m hc hlt2
          | none => simpa [emptyCellsAux] using ih (n + 1) i2 m hc hlt2

theorem length_emptyCells_set {b : Board} {i : Nat} (m : Mark)
    (hc : cellAt b i = none) (hlt : i < b.length) :
    (emptyCells (b.set i (some m))).length + 1 = (emptyCells b).length :=
  length_emptyCellsAux_set b 0 i m hc hlt

theorem set_none_cancel (b : Board) : ∀ i, cellAt b i = none → b.set i none = b := by
  induction b with
  | nil => intro i _; rfl
  | cons c rest ih =>
      intro i hc
      cases i with
      | zero => rw [cellAt_cons_zero] at hc; simp [hc]
      | succ i2 =>
          rw [cellAt_cons_succ] at hc
          simpa [List.set] using ih i2 hc

theorem marksCount_set (b : Board) :
    ∀ i m, cellAt b i = none → i < b.length →
      marksCount (b.set i (some m)) = marksCount b + 1 := by
  induction b with
  | nil => intro i m _ h; simp at h
  | cons c rest ih =>
      intro i m hc hlt
      cases i with
      | zero =>
          rw [cellAt_cons_zero] at hc
          subst hc
          simp [marksCount, List.filter]
      | succ i2 =>
          rw [cellAt_cons_succ] at hc
          have hlt2 : i2 < rest.length := by simpa using hlt
          have := ih i2 m hc hlt2
          cases c with
          | some m2 => simpa [marksCount, List.filter] using this
          | none => simpa [marksCount, List.filter] using this

theorem all_isSome_iff (b : Board) :
    b.all (fun c => c.isSome) = true ↔ ∀ i, i < b.length → cellAt b i ≠ none := by
  induction b with
  | nil => simp
  | cons c rest ih =>
      simp only [List.all_cons, Bool.and_eq_true, ih]
      constructor
      · rintro ⟨hc, hrest⟩ i hi
        cases i with
        | zero =>
            rw [cellAt_cons_zero]
            cases c with
            | none => simp at hc
            | some m => simp
        | succ i2 =>
            rw [cellAt_cons_succ]
            exact hrest i2 (by simpa using hi)
      · intro h
        refine ⟨?_, fun i hi => ?_⟩
        · have := h 0 (by simp)
          rw [cellAt_cons_zero] at this
          cases c with
          | none => exact absurd rfl this
          | some m => rfl
        · have := h (i + 1) (by simpa using hi)
          rwa [cellAt_cons_succ] at this

theorem evaluateBoard_ongoing_ne_nil {b : Board}
    (h : evaluateBoard b = Outcome.ongoing) : emptyCells b ≠ [] := by
  intro hnil
  have hall := (emptyCellsAux_eq_nil b 0).mp hnil
  unfold evaluateBoard at h
  cases hev : evalLines b WINS with
  | some ml => rw [hev] at h; cases h
  | none => rw [hev, if_pos hall] at h; cases h

/-! ## Unfolding lemmas -/

theorem minimaxAux_won {b : Board} {m : Mark} {l : Line}
    (h : evaluateBoard b = Outcome.won m l) (fuel : Nat) (aiM player : Mark)
    (alpha beta : Int) :
    minimaxAux fuel aiM b player alpha beta =
      if m = aiM then (10, none) else (-10, none) := by
  cases fuel with
  | zero => conv_lhs => rw [minimaxAux]; rw [h]
  | succ fuel => conv_lhs => rw [minimaxAux]; rw [h]

theorem minimaxAux_draw {b : Board} (h : evaluateBoard b = Outcome.draw)
    (fuel : Nat) (aiM player : Mark) (alpha beta : Int) :
    minimaxAux fuel aiM b player alpha beta = (0, none) := by
  cases fuel with
  | zero => conv_lhs => rw [minimaxAux]; rw [h]
  | succ fuel => conv_lhs => rw [minimaxAux]; rw [h]

theorem minimaxAux_ongoing {b : Board} (h : evaluateBoard b = Outcome.ongoing)
    (fuel : Nat) (aiM player : Mark) (alpha beta : Int) :
    minimaxAux (fuel + 1) aiM b player alpha beta =
      mmLoop (fun b2 a2 b3 => minimaxAux fuel aiM b2 player.other a2 b3)
        (player = aiM) b player (emptyCells b)
        ((if player = aiM then NEG_INF else POS_INF), (emptyCells b).head?)
        alpha beta := by
  conv_lhs => rw [minimaxAux]
  rw [h]

theorem minimaxNP_won {b : Board} {m : Mark} {l : Line}
    (h : evaluateBoard b = Outcome.won m l) (fuel : Nat) (aiM player : Mark)
    (alpha beta : Int) :
    minimaxNP fuel aiM b player alpha beta =
      if m = aiM then (10, none) else (-10, none) := by
  cases fuel with
  | zero => conv_lhs => rw [minimaxNP]; rw [h]
  | succ fuel => conv_lhs => rw [minimaxNP]; rw [h]

theorem minimaxNP_draw {b : Board} (h : evaluateBoard b = Outcome.draw)
    (fuel : Nat) (aiM player : Mark) (alpha beta : Int) :
    minimaxNP fuel aiM b player alpha beta = (0, none) := by
  cases fuel with
  | zero => conv_lhs => rw [minimaxNP]; rw [h]
  | succ fuel => conv_lhs => rw [minimaxNP]; rw [h]

theorem minimaxNP_ongoing {b : Board} (h : evaluateBoard b = Outcome.ongoing)
    (fuel : Nat) (aiM player : Mark) (alpha beta : Int) :
    minimaxNP (fuel + 1) aiM b player alpha beta =
      mmLoopNP (fun b2 a2 b3 => minimaxNP fuel aiM b2 player.other a2 b3)
        (player = aiM) b player (emptyCells b)
        ((if player = aiM then NEG_INF else POS_INF), (emptyCells b).head?)
        alpha beta := by
  conv_lhs => rw [minimaxNP]
  rw [h]

theorem mmVal_won {b : Board} {m : Mark} {l : Line}
    (h : evaluateBoard b = Outcome.won m l) (fuel : Nat) (aiM player : Mark) :
    mmVal fuel aiM b player = if m = aiM then 10 else -10 := by
  cases fuel with
  | zero => conv_lhs => rw [mmVal]; rw [h]
  | succ fuel => conv_lhs => rw [mmVal]; rw [h]

theorem mmVal_draw {b : Board} (h : evaluateBoard b = Outcome.draw)
    (fuel : Nat) (aiM player : Mark) :
    mmVal fuel aiM b player = 0 := by
  cases fuel with
  | zero => conv_lhs => rw [mmVal]; rw [h]
  | succ fuel => conv_lhs => rw [mmVal]; rw [h]

theorem mmVal_ongoing {b : Board} (h : evaluateBoard b = Outcome.ongoing)
    (fuel : Nat) (aiM player : Mark) :
    mmVal (fuel + 1) aiM b player =
      valLoop (fun i => mmVal fuel aiM (b.set i (some player)) player.other)
        (player = aiM) (emptyCells b)
        (if player = aiM then NEG_INF else POS_INF) := by
  conv_lhs => rw [mmVal]
  rw [h]

theorem minimaxMut_won {b : Board} {m : Mark} {l : Line}
    (h : evaluateBoard b = Outcome.won m l) (fuel : Nat) (aiM player : Mark)
    (alpha beta : Int) :
    minimaxMut fuel aiM b player alpha beta =
      ((if m = aiM then ((10 : Int), (none : Option Nat)) else (-10, none)), b) := by
  cases fuel with
  | zero => conv_lhs => rw [minimaxMut]; rw [h]
  | succ fuel => conv_lhs => rw [minimaxMut]; rw [h]

theorem minimaxMut_draw {b : Board} (h : evaluateBoard b = Outcome.draw)
    (fuel : Nat) (aiM player : Mark) (alpha beta : Int) :
    minimaxMut fuel aiM b player alpha beta = ((0, none), b) := by
  cases fuel with
  | zero => conv_lhs => rw [minimaxMut]; rw [h]
  | succ fuel => conv_lhs => rw [minimaxMut]; rw [h]

theorem minimaxMut_ongoing {b : Board} (h : evaluateBoard b = Outcome.ongoing)
    (fuel : Nat) (aiM player : Mark) (alpha beta : Int) :
    minimaxMut (fuel + 1) aiM b player alpha beta =
      mmLoopMut (fun b2 a2 b3 => minimaxMut fuel aiM b2 player.other a2 b3)
        (player = aiM) player (emptyCells b) b
        ((if player = aiM then NEG_INF else POS_INF), (emptyCells b).head?)
        alpha beta := by
  conv_lhs => rw [minimaxMut]
  rw [h]

/-! ## `valLoop` facts -/

theorem valLoop_nil (w : Nat → Int) (isMax : Bool) (acc : Int) :
    valLoop w isMax [] acc = acc := rfl

theorem valLoop_cons_max (w : Nat → Int) (i : Nat) (rest : List Nat) (acc : Int) :
    valLoop w true (i :: rest) acc = valLoop w true rest (max acc (w i)) := rfl

theorem valLoop_cons_min (w : Nat → Int) (i : Nat) (rest : List Nat) (acc : Int) :
    valLoop w false (i :: rest) acc = valLoop w false rest (min acc (w i)) := rfl

theorem valLoop_max_ge_acc (w : Nat → Int) :
    ∀ l acc, acc ≤ valLoop w true l acc := by
  intro l
  induction l with
  | nil => intro acc; simp [valLoop_nil]
  | cons i rest ih =>
      intro acc
      rw [valLoop_cons_max]
      exact le_trans (le_max_left acc (w i)) (ih (max acc (w i)))

theorem valLoop_max_ge_mem (w : Nat → Int) :
    ∀ l acc i, i ∈ l → w i ≤ valLoop w true l acc := by
  intro l
  induction l with
  | nil => intro acc i h; cases h
  | cons j rest ih =>
      intro acc i h
      rw [valLoop_cons_max]
      rcases List.mem_cons.mp h with h | h
      · subst h
        exact le_trans (le_max_right acc (w i)) (valLoop_max_ge_acc w rest _)
      · exact ih (max acc (w j)) i h

theorem valLoop_max_cases (w : Nat → Int) :
    ∀ l acc, valLoop w true l acc = acc ∨ ∃ i ∈ l, valLoop w true l acc = w i := by
  intro l
  induction l with
  | nil => intro acc; left; rfl
  | cons j rest ih =>
      intro acc
      rw [valLoop_cons_max]
      rcases ih (max acc (w j)) with h | ⟨i, hi, h⟩
      · rcases max_choice acc (w j) with hm | hm
        · left; rw [h, hm]
        · right; exact ⟨j, List.mem_cons_self j rest, by rw [h, hm]⟩
      · right; exact ⟨i, List.mem_cons_of_mem j hi, h⟩

theorem valLoop_max_mono (w : Nat → Int) :
    ∀ l acc acc2, acc ≤ acc2 → valLoop w true l acc ≤ valLoop w true l acc2 := by
  intro l
  induction l with
  | nil => intro acc acc2 h; simpa [valLoop_nil] using h
  | cons j rest ih =>
      intro acc acc2 h
      rw [valLoop_cons_max, valLoop_cons_max]
      exact ih _ _ (max_le_max h (le_refl (w j)))

theorem valLoop_min_le_acc (w : Nat → Int) :
    ∀ l acc, valLoop w false l acc ≤ acc := by
  intro l
  induction l with
  | nil => intro acc; simp [valLoop_nil]
  | cons i rest ih =>
      intro acc
      rw [valLoop_cons_min]
      exact le_trans (ih (min acc (w i))) (min_le_left acc (w i))

theorem valLoop_min_le_mem (w : Nat → Int) :
    ∀ l acc i, i ∈ l → valLoop w false l acc ≤ w i := by
  intro l
  induction l with
  | nil => intro acc i h; cases h
  | cons j rest ih =>
      intro acc i h
      rw [valLoop_cons_min]
      rcases List.mem_cons.mp h with h | h
      · subst h
        exact le_trans (valLoop_min_le_acc w rest _) (min_le_right acc (w i))
      · exact ih (min acc (w j)) i h

theorem valLoop_min_cases (w : Nat → Int) :
    ∀ l acc, valLoop w false l acc = acc ∨ ∃ i ∈ l, valLoop w false l acc = w i := by
  intro l
  induction l with
  | nil => intro acc; left; rfl
  | cons j rest ih =>
      intro acc
      rw [valLoop_cons_min]
      rcases ih (min acc (w j)) with h | ⟨i, hi, h⟩
      · rcases min_choice acc (w j) with hm | hm
        · left; rw [h, hm]
        · right; exact ⟨j, List.mem_cons_self j rest, by rw [h, hm]⟩
      · right; exact ⟨i, List.mem_cons_of_mem j hi, h⟩

theorem valLoop_min_mono (w : Nat → Int) :
    ∀ l acc acc2, acc ≤ acc2 → valLoop w false l acc ≤ valLoop w false l acc2 := by
  intro l
  induction l with
  | nil => intro acc acc2 h; simpa [valLoop_nil] using h
  | cons j rest ih =>
      intro acc acc2 h
      rw [valLoop_cons_min, valLoop_cons_min]
      exact ih _ _ (min_le_min h (le_refl (w j)))
theorem minimaxAux_zero_ongoing {b : Board} (h : evaluateBoard b = Outcome.ongoing)
    (aiM player : Mark) (alpha beta : Int) :
    minimaxAux 0 aiM b player alpha beta = (0, none) := by
  conv_lhs => rw [minimaxAux]
  rw [h]

theorem minimaxNP_zero_ongoing {b : Board} (h : evaluateBoard b = Outcome.ongoing)
    (aiM player : Mark) (alpha beta : Int) :
    minimaxNP 0 aiM b player alpha beta = (0, none) := by
  conv_lhs => rw [minimaxNP]
  rw [h]

theorem mmVal_zero_ongoing {b : Board} (h : evaluateBoard b = Outcome.ongoing)
    (aiM player : Mark) :
    mmVal 0 aiM b player = 0 := by
  conv_lhs => rw [mmVal]
  rw [h]

theorem minimaxMut_zero_ongoing {b : Board} (h : evaluateBoard b = Outcome.ongoing)
    (aiM player : Mark) (alpha beta : Int) :
    minimaxMut 0 aiM b player alpha beta = ((0, none), b) := by
  conv_lhs => rw [minimaxMut]
  rw [h]

theorem minimaxAux_ongoing_ai {b : Board} (h : evaluateBoard b = Outcome.ongoing)
    (fuel : Nat) {aiM player : Mark} (hpm : player = aiM) (alpha beta : Int) :
    minimaxAux (fuel + 1) aiM b player alpha beta =
      mmLoop (fun b2 a2 b3 => minimaxAux fuel aiM b2 player.other a2 b3)
        true b player (emptyCells b)
        (NEG_INF, (emptyCells b).head?) alpha beta := by
  subst hpm
  rw [minimaxAux_ongoing h]
  simp only [eq_self_iff_true, decide_True, if_true]

theorem minimaxAux_ongoing_opp {b : Board} (h : evaluateBoard b = Outcome.ongoing)
    (fuel : Nat) {aiM player : Mark} (hpm : ¬ player = aiM) (alpha beta : Int) :
    minimaxAux (fuel + 1) aiM b player alpha beta =
      mmLoop (fun b2 a2 b3 => minimaxAux fuel aiM b2 player.other a2 b3)
        false b player (emptyCells b)
        (POS_INF, (emptyCells b).head?) alpha beta := by
  rw [minimaxAux_ongoing h]
  simp only [decide_eq_false hpm, if_neg hpm]

theorem minimaxNP_ongoing_ai {b : Board} (h : evaluateBoard b = Outcome.ongoing)
    (fuel : Nat) {aiM player : Mark} (hpm : player = aiM) (alpha beta : Int) :
    minimaxNP (fuel + 1) aiM b player alpha beta =
      mmLoopNP (fun b2 a2 b3 => minimaxNP fuel aiM b2 player.other a2 b3)
        true b player (emptyCells b)
        (NEG_INF, (emptyCells b).head?) alpha beta := by
  subst hpm
  rw [minimaxNP_ongoing h]
  simp only [eq_self_iff_true, decide_True, if_true]

theorem minimaxNP_ongoing_opp {b : Board} (h : evaluateBoard b = Outcome.ongoing)
    (fuel : Nat) {aiM player : Mark} (hpm : ¬ player = aiM) (alpha beta : Int) :
    minimaxNP (fuel + 1) aiM b player alpha beta =
      mmLoopNP (fun b2 a2 b3 => minimaxNP fuel aiM b2 player.other a2 b3)
        false b player (emptyCells b)
        (POS_INF, (emptyCells b).head?) alpha beta := by
  rw [minimaxNP_ongoing h]
  simp only [decide_eq_false hpm, if_neg hpm]

theorem mmVal_ongoing_ai {b : Board} (h : evaluateBoard b = Outcome.ongoing)
    (fuel : Nat) {aiM player : Mark} (hpm : player = aiM) :
    mmVal (fuel + 1) aiM b player =
      valLoop (fun i => mmVal fuel aiM (b.set i (some player)) player.other)
        true (emptyCells b) NEG_INF := by
  subst hpm
  rw [mmVal_ongoing h]
  simp only [eq_self_iff_true, decide_True, if_true]

theorem mmVal_ongoing_opp {b : Board} (h : evaluateBoard b = Outcome.ongoing)
    (fuel : Nat) {aiM player : Mark} (hpm : ¬ player = aiM) :
    mmVal (fuel + 1) aiM b player =
      valLoop (fun i => mmVal fuel aiM (b.set i (some player)) player.other)
        false (emptyCells b) POS_INF := by
  rw [mmVal_ongoing h]
  simp only [decide_eq_false hpm, if_neg hpm]

theorem minimaxMut_ongoing_ai {b : Board} (h : evaluateBoard b = Outcome.ongoing)
    (fuel : Nat) {aiM player : Mark} (hpm : player = aiM) (alpha beta : Int) :
    minimaxMut (fuel + 1) aiM b player alpha beta =
      mmLoopMut (fun b2 a2 b3 => minimaxMut fuel aiM b2 player.other a2 b3)
        true player (emptyCells b) b
        (NEG_INF, (emptyCells b).head?) alpha beta := by
  subst hpm
  rw [minimaxMut_ongoing h]
  simp only [eq_self_iff_true, decide_True, if_true]

theorem minimaxMut_ongoing_opp {b : Board} (h : evaluateBoard b = Outcome.ongoing)
    (fuel : Nat) {aiM player : Mark} (hpm : ¬ player = aiM) (alpha beta : Int) :
    minimaxMut (fuel + 1) aiM b player alpha beta =
      mmLoopMut (fun b2 a2 b3 => minimaxMut fuel aiM b2 player.other a2 b3)
        false player (emptyCells b) b
        (POS_INF, (emptyCells b).head?) alpha beta := by
  rw [minimaxMut_ongoing h]
  simp only [decide_eq_false hpm, if_neg hpm]

/-! ## Scores reached by the search are in {-10, 0, 10} -/

/-- The three scores the JS code can actually produce at a decided
node. -/
def goodScore (s : Int) : Prop := s = -10 ∨ s = 0 ∨ s = 10

theorem goodScore_bounds {s : Int} (h : goodScore s) : -10 ≤ s ∧ s ≤ 10 := by
  rcases h with h | h | h <;> subst h <;> constructor <;> decide

theorem mmLoop_score_mem_of (rec : Board → Int → Int → Int × Option Nat)
    (isMax : Bool) (b : Board) (player : Mark) :
    ∀ cs (best : Int × Option Nat) (alpha beta : Int),
      goodScore best.1 →
      (∀ i ∈ cs, ∀ a c, goodScore ((rec (b.set i (some player)) a c).1)) →
      goodScore ((mmLoop rec isMax b player cs best alpha beta).1) := by
  intro cs
  induction cs with
  | nil =>
      intro best alpha beta hbest _
      rw [mmLoop]
      exact hbest
  | cons idx rest ih =>
      intro best alpha beta hbest hrec
      rw [mmLoop]
      have hs : goodScore ((rec (b.set idx (some player)) alpha beta).1) :=
        hrec idx (List.mem_cons_self idx rest) alpha beta
      have hrec2 : ∀ i ∈ rest, ∀ a c, goodScore ((rec (b.set i (some player)) a c).1) :=
        fun i hi => hrec i (List.mem_cons_of_mem idx hi)
      have hbest2max : goodScore
          ((if (rec (b.set idx (some player)) alpha beta).1 > best.1
            then ((rec (b.set idx (some player)) alpha beta).1, some idx)
            else best).1) := by
        split
        · exact hs
        · exact hbest
      have hbest2min : goodScore
          ((if (rec (b.set idx (some player)) alpha beta).1 < best.1
            then ((rec (b.set idx (some player)) alpha beta).1, some idx)
            else best).1) := by
        split
        · exact hs
        · exact hbest
      cases isMax with
      | true =>
          simp only [if_true]
          split
          · exact hbest2max
          · exact ih _ _ _ hbest2max hrec2
      | false =>
          simp only [if_false, Bool.false_eq_true]
          split
          · exact hbest2min
          · exact ih _ _ _ hbest2min hrec2

theorem mmLoop_score_mem_max (rec : Board → Int → Int → Int × Option Nat)
    (b : Board) (player : Mark) (idx : Nat) (rest : List Nat)
    (best : Int × Option Nat) (alpha beta : Int)
    (hbest : best.1 = NEG_INF)
    (hrec : ∀ i ∈ idx :: rest, ∀ a c, goodScore ((rec (b.set i (some player)) a c).1)) :
    goodScore ((mmLoop rec true b player (idx :: rest) best alpha beta).1) := by
  rw [mmLoop]
  have hs : goodScore ((rec (b.set idx (some player)) alpha beta).1) :=
    hrec idx (List.mem_cons_self idx rest) alpha beta
  have hgt : (rec (b.set idx (some player)) alpha beta).1 > best.1 := by
    rw [hbest]
    have := (goodScore_bounds hs).1
    unfold NEG_INF
    omega
  simp only [if_true, if_pos hgt]
  split
  · exact hs
  · exact mmLoop_score_mem_of rec true b player rest _ _ _ hs
      (fun i hi => hrec i (List.mem_cons_of_mem idx hi))

theorem mmLoop_score_mem_min (rec : Board → Int → Int → Int × Option Nat)
    (b : Board) (player : Mark) (idx : Nat) (rest : List Nat)
    (best : Int × Option Nat) (alpha beta : Int)
    (hbest : best.1 = POS_INF)
    (hrec : ∀ i ∈ idx :: rest, ∀ a c, goodScore ((rec (b.set i (some player)) a c).1)) :
    goodScore ((mmLoop rec false b player (idx :: rest) best alpha beta).1) := by
  rw [mmLoop]
  have hs : goodScore ((rec (b.set idx (some player)) alpha beta).1) :=
    hrec idx (List.mem_cons_self idx rest) alpha beta
  have hlt : (rec (b.set idx (some player)) alpha beta).1 < best.1 := by
    rw [hbest]
    have := (goodScore_bounds hs).2
    unfold POS_INF
    omega
  simp only [if_false, Bool.false_eq_true, if_pos hlt]
  split
  · exact hs
  · exact mmLoop_score_mem_of rec false b player rest _ _ _ hs
      (fun i hi => hrec i (List.mem_cons_of_mem idx hi))

theorem child_emptyCells_le {b : Board} {i : Nat} {fuel : Nat} (m : Mark)
    (hi : i ∈ emptyCells b) (hf : (emptyCells b).length ≤ fuel + 1) :
    (emptyCells (b.set i (some m))).length ≤ fuel := by
  have h := mem_emptyCells hi
  have := length_emptyCells_set m h.2 h.1
  omega

theorem minimaxAux_score_mem :
    ∀ (fuel : Nat) (aiM : Mark) (b : Board) (player : Mark) (alpha beta : Int),
      (emptyCells b).length ≤ fuel →
      goodScore ((minimaxAux fuel aiM b player alpha beta).1) := by
  intro fuel
  induction fuel with
  | zero =>
      intro aiM b player alpha beta _
      cases hev : evaluateBoard b with
      | won m l =>
          rw [minimaxAux_won hev]
          split
          · right; right; rfl
          · left; rfl
      | draw => rw [minimaxAux_draw hev]; right; left; rfl
      | ongoing => rw [minimaxAux_zero_ongoing hev]; right; left; rfl
  | succ fuel ih =>
      intro aiM b player alpha beta hf
      cases hev : evaluateBoard b with
      | won m l =>
          rw [minimaxAux_won hev]
          split
          · right; right; rfl
          · left; rfl
      | draw => rw [minimaxAux_draw hev]; right; left; rfl
      | ongoing =>
          have hne := evaluateBoard_ongoing_ne_nil hev
          have hrec : ∀ i ∈ emptyCells b, ∀ a c,
              goodScore ((minimaxAux fuel aiM (b.set i (some player)) player.other a c).1) :=
            fun i hi a c => ih aiM _ player.other a c (child_emptyCells_le player hi hf)
          by_cases hpm : player = aiM
          · rw [minimaxAux_ongoing_ai hev fuel hpm]
            cases hcs : emptyCells b with
            | nil => exact absurd hcs hne
            | cons idx rest =>
                exact mmLoop_score_mem_max _ b player idx rest _ _ _ rfl
                  (by rw [← hcs]; exact hrec)
          · rw [minimaxAux_ongoing_opp hev fuel hpm]
            cases hcs : emptyCells b with
            | nil => exact absurd hcs hne
            | cons idx rest =>
                exact mmLoop_score_mem_min _ b player idx rest _ _ _ rfl
                  (by rw [← hcs]; exact hrec)

theorem mmVal_mem :
    ∀ (fuel : Nat) (aiM : Mark) (b : Board) (player : Mark),
      (emptyCells b).length ≤ fuel →
      goodScore (mmVal fuel aiM b player) := by
  intro fuel
  induction fuel with
  | zero =>
      intro aiM b player _
      cases hev : evaluateBoard b with
      | won m l =>
          rw [mmVal_won hev]
          split
          · right; right; rfl
          · left; rfl
      | draw => rw [mmVal_draw hev]; right; left; rfl
      | ongoing => rw [mmVal_zero_ongoing hev]; right; left; rfl
  | succ fuel ih =>
      intro aiM b player hf
      cases hev : evaluateBoard b with
      | won m l =>
          rw [mmVal_won hev]
          split
          · right; right; rfl
          · left; rfl
      | draw => rw [mmVal_draw hev]; right; left; rfl
      | ongoing =>
          have hne := evaluateBoard_ongoing_ne_nil hev
          have hrec : ∀ i ∈ emptyCells b,
              goodScore (mmVal fuel aiM (b.set i (some player)) player.other) :=
            fun i hi => ih aiM _ player.other (child_emptyCells_le player hi hf)
          by_cases hpm : player = aiM
          · rw [mmVal_ongoing_ai hev fuel hpm]
            cases hcs : emptyCells b with
            | nil => exact absurd hcs hne
            | cons idx rest =>
                have hmem0 : idx ∈ emptyCells b := by
                  rw [hcs]; exact List.mem_cons_self idx rest
                rcases valLoop_max_cases
                    (fun i => mmVal fuel aiM (b.set i (some player)) player.other)
                    (idx :: rest) NEG_INF with hc | ⟨i, hi, hc⟩
                · exfalso
                  have hlow := valLoop_max_ge_mem
                      (fun i => mmVal fuel aiM (b.set i (some player)) player.other)
                      (idx :: rest) NEG_INF idx (List.mem_cons_self idx rest)
                  have hg := hrec idx hmem0
                  have hb := (goodScore_bounds hg).1
                  rw [hc] at hlow
                  have hlow2 : mmVal fuel aiM (b.set idx (some player)) player.other ≤ NEG_INF :=
                    hlow
                  unfold NEG_INF at hlow2
                  omega
                · rw [hc]
                  have : i ∈ emptyCells b := by rw [hcs]; exact hi
                  exact hrec i this
          · rw [mmVal_ongoing_opp hev fuel hpm]
            cases hcs : emptyCells b with
            | nil => exact absurd hcs hne
            | cons idx rest =>
                have hmem0 : idx ∈ emptyCells b := by
                  rw [hcs]; exact List.mem_cons_self idx rest
                rcases valLoop_min_cases
                    (fun i => mmVal fuel aiM (b.set i (some player)) player.other)
                    (idx :: rest) POS_INF with hc | ⟨i, hi, hc⟩
                · exfalso
                  have hhigh := valLoop_min_le_mem
                      (fun i => mmVal fuel aiM (b.set i (some player)) player.other)
                      (idx :: rest) POS_INF idx (List.mem_cons_self idx rest)
                  have hg := hrec idx hmem0
                  have hb := (goodScore_bounds hg).2
                  rw [hc] at hhigh
                  have hhigh2 : POS_INF ≤ mmVal fuel aiM (b.set idx (some player)) player.other :=
                    hhigh
                  unfold POS_INF at hhigh2
                  omega
                · rw [hc]
                  have : i ∈ emptyCells b := by rw [hcs]; exact hi
                  exact hrec i this

/-! ## Knuth-Moore soundness of the alpha-beta loop

The search value `g` of a node explored with window `(alpha, beta)`
relates to the true minimax value `v` of that node in the classic
fail-soft way: `g ≤ alpha` forces `v ≤ g`, `beta ≤ g` forces `g ≤ v`,
and a `g` strictly inside the window is exact. -/

/-- Fail-soft relation between a returned score `g` and the true value
`v` for the window `(alpha, beta)`. -/
def kmOK (g v alpha beta : Int) : Prop :=
  (g ≤ alpha → v ≤ g) ∧ (beta ≤ g → g ≤ v) ∧ (alpha < g → g < beta → g = v)

theorem kmOK_refl (g alpha beta : Int) : kmOK g g alpha beta :=
  ⟨fun _ => le_refl g, fun _ => le_refl g, fun _ _ => rfl⟩

theorem mmLoop_km_max (rec : Board → Int → Int → Int × Option Nat)
    (b : Board) (player : Mark) (w : Nat → Int) (beta : Int)
    (hbP : beta ≤ POS_INF) :
    ∀ (cs : List Nat) (bs : Int × Option Nat) (alpha : Int),
      bs.1 ≤ alpha → NEG_INF ≤ alpha → alpha < beta →
      (∀ i ∈ cs, ∀ a c, NEG_INF ≤ a → c ≤ POS_INF → a < c →
        kmOK ((rec (b.set i (some player)) a c).1) (w i) a c) →
      kmOK ((mmLoop rec true b player cs bs alpha beta).1)
        (valLoop w true cs bs.1) alpha beta := by
  intro cs
  induction cs with
  | nil =>
      intro bs alpha _ _ _ _
      rw [mmLoop, valLoop_nil]
      exact kmOK_refl bs.1 alpha beta
  | cons idx rest ih =>
      intro bs alpha hbs hna hab hrec
      have hkm : kmOK ((rec (b.set idx (some player)) alpha beta).1) (w idx) alpha beta :=
        hrec idx (List.mem_cons_self idx rest) alpha beta hna hbP hab
      have hrec2 : ∀ i ∈ rest, ∀ a c, NEG_INF ≤ a → c ≤ POS_INF → a < c →
          kmOK ((rec (b.set i (some player)) a c).1) (w i) a c :=
        fun i hi => hrec i (List.mem_cons_of_mem idx hi)
      rw [mmLoop]
      simp only [if_true]
      by_cases hcut : beta ≤ max alpha ((rec (b.set idx (some player)) alpha beta).1)
      · -- pruning break after the first child
        have hsb : beta ≤ (rec (b.set idx (some player)) alpha beta).1 := by
          rcases max_cases alpha ((rec (b.set idx (some player)) alpha beta).1) with
            ⟨hm, _⟩ | ⟨hm, _⟩ <;> omega
        have hwge : (rec (b.set idx (some player)) alpha beta).1 ≤ w idx := hkm.2.1 hsb
        have hgt : (rec (b.set idx (some player)) alpha beta).1 > bs.1 := by omega
        rw [if_pos hcut, if_pos hgt]
        refine ⟨fun h => absurd h (by omega), fun _ => ?_, fun _ h2 => absurd h2 (by omega)⟩
        exact le_trans hwge (valLoop_max_ge_mem w (idx :: rest) bs.1 idx
          (List.mem_cons_self idx rest))
      · -- no break: continue with the rest of the children
        rw [if_neg hcut]
        have hcutlt : max alpha ((rec (b.set idx (some player)) alpha beta).1) < beta := by
          omega
        rcases le_or_lt ((rec (b.set idx (some player)) alpha beta).1) alpha with hsle | hslt
        · -- child score failed low: alpha unchanged
          have hwle : w idx ≤ (rec (b.set idx (some player)) alpha beta).1 := hkm.1 hsle
          have hmax : max alpha ((rec (b.set idx (some player)) alpha beta).1) = alpha :=
            max_eq_left hsle
          rw [hmax]
          have hb2 : (if (rec (b.set idx (some player)) alpha beta).1 > bs.1
              then ((rec (b.set idx (some player)) alpha beta).1, some idx)
              else bs).1 ≤ alpha := by
            split
            · exact hsle
            · exact hbs
          have hb2eq : (if (rec (b.set idx (some player)) alpha beta).1 > bs.1
              then ((rec (b.set idx (some player)) alpha beta).1, some idx)
              else bs).1 = max bs.1 ((rec (b.set idx (some player)) alpha beta).1) := by
            split
            · rename_i hgt
              exact (max_eq_right (le_of_lt hgt)).symm
            · rename_i hngt
              exact (max_eq_left (by omega)).symm
          have hIH := ih (if (rec (b.set idx (some player)) alpha beta).1 > bs.1
              then ((rec (b.set idx (some player)) alpha beta).1, some idx)
              else bs) alpha hb2 hna hab hrec2
          rw [valLoop_cons_max]
          -- compare the two accumulators
          have hacc : max bs.1 (w idx) ≤ max bs.1 ((rec (b.set idx (some player)) alpha beta).1) := by
            rcases max_cases bs.1 (w idx) with ⟨hm, _⟩ | ⟨hm, _⟩ <;>
              rcases max_cases bs.1 ((rec (b.set idx (some player)) alpha beta).1) with
                ⟨hm2, _⟩ | ⟨hm2, _⟩ <;> omega
          have hmono : valLoop w true rest (max bs.1 (w idx)) ≤
              valLoop w true rest (max bs.1 ((rec (b.set idx (some player)) alpha beta).1)) := by
            have := valLoop_max_mono w rest _ _ hacc
            exact this
          rw [hb2eq] at hIH
          refine ⟨fun h => le_trans hmono (hIH.1 h), fun h => ?_, fun h1 h2 => ?_⟩
          · -- beta ≤ G
            have hGV := hIH.2.1 h
            rcases valLoop_max_cases w rest
                (max bs.1 ((rec (b.set idx (some player)) alpha beta).1)) with hc | ⟨i, hi, hc⟩
            · exfalso
              rw [hc] at hGV
              have : max bs.1 ((rec (b.set idx (some player)) alpha beta).1) ≤ alpha := by
                rcases max_cases bs.1 ((rec (b.set idx (some player)) alpha beta).1) with
                  ⟨hm, _⟩ | ⟨hm, _⟩ <;> omega
              omega
            · rw [hc] at hGV
              have hWiV : w i ≤ valLoop w true (idx :: rest) bs.1 :=
                valLoop_max_ge_mem w (idx :: rest) bs.1 i (List.mem_cons_of_mem idx hi)
              rw [valLoop_cons_max] at hWiV
              exact le_trans hGV hWiV
          · -- alpha < G < beta: exact
            have hGV := hIH.2.2 h1 h2
            rcases valLoop_max_cases w rest
                (max bs.1 ((rec (b.set idx (some player)) alpha beta).1)) with hc | ⟨i, hi, hc⟩
            · exfalso
              rw [hc] at hGV
              have : max bs.1 ((rec (b.set idx (some player)) alpha beta).1) ≤ alpha := by
                rcases max_cases bs.1 ((rec (b.set idx (some player)) alpha beta).1) with
                  ⟨hm, _⟩ | ⟨hm, _⟩ <;> omega
              omega
            · have hWiV : w i ≤ valLoop w true (idx :: rest) bs.1 :=
                valLoop_max_ge_mem w (idx :: rest) bs.1 i (List.mem_cons_of_mem idx hi)
              rw [valLoop_cons_max] at hWiV
              rw [hGV, hc]
              have hVle : valLoop w true rest (max bs.1 (w idx)) ≤ w i := by
                rw [← hc]
                exact hmono
              omega
        · -- child score inside the window: it is exact, alpha rises to it
          have hsltb : (rec (b.set idx (some player)) alpha beta).1 < beta := by omega
          have hexact : (rec (b.set idx (some player)) alpha beta).1 = w idx :=
            hkm.2.2 hslt hsltb
          have hmax : max alpha ((rec (b.set idx (some player)) alpha beta).1) =
              (rec (b.set idx (some player)) alpha beta).1 :=
            max_eq_right (le_of_lt hslt)
          have hgt : (rec (b.set idx (some player)) alpha beta).1 > bs.1 := by omega
          rw [hmax, if_pos hgt]
          have hIH : kmOK ((mmLoop rec true b player rest
                ((rec (b.set idx (some player)) alpha beta).1, some idx)
                ((rec (b.set idx (some player)) alpha beta).1) beta).1)
              (valLoop w true rest ((rec (b.set idx (some player)) alpha beta).1))
              ((rec (b.set idx (some player)) alpha beta).1) beta :=
            ih ((rec (b.set idx (some player)) alpha beta).1, some idx)
              ((rec (b.set idx (some player)) alpha beta).1) (le_refl _)
              (by omega) (by omega) hrec2
          rw [valLoop_cons_max]
          have haccV : max bs.1 (w idx) = (rec (b.set idx (some player)) alpha beta).1 := by
            rw [← hexact]
            exact max_eq_right (by omega)
          rw [haccV]
          refine ⟨fun h => ?_, fun h => hIH.2.1 h, fun h1 h2 => ?_⟩
          · exact le_trans (hIH.1 (by omega)) (le_refl _)
          · rcases le_or_lt (mmLoop rec true b player rest
                ((rec (b.set idx (some player)) alpha beta).1, some idx)
                ((rec (b.set idx (some player)) alpha beta).1) beta).1
                ((rec (b.set idx (some player)) alpha beta).1) with hGs | hGs
            · have hVG := hIH.1 hGs
              have hVs : (rec (b.set idx (some player)) alpha beta).1 ≤
                  valLoop w true rest ((rec (b.set idx (some player)) alpha beta).1) :=
                valLoop_max_ge_acc w rest _
              omega
            · exact hIH.2.2 hGs h2

theorem mmLoop_km_min (rec : Board → Int → Int → Int × Option Nat)
    (b : Board) (player : Mark) (w : Nat → Int) (alpha : Int)
    (hnA : NEG_INF ≤ alpha) :
    ∀ (cs : List Nat) (bs : Int × Option Nat) (beta : Int),
      beta ≤ bs.1 → beta ≤ POS_INF → alpha < beta →
      (∀ i ∈ cs, ∀ a c, NEG_INF ≤ a → c ≤ POS_INF → a < c →
        kmOK ((rec (b.set i (some player)) a c).1) (w i) a c) →
      kmOK ((mmLoop rec false b player cs bs alpha beta).1)
        (valLoop w false cs bs.1) alpha beta := by
  intro cs
  induction cs with
  | nil =>
      intro bs beta _ _ _ _
      rw [mmLoop, valLoop_nil]
      exact kmOK_refl bs.1 alpha beta
  | cons idx rest ih =>
      intro bs beta hbs hbP hab hrec
      have hkm : kmOK ((rec (b.set idx (some player)) alpha beta).1) (w idx) alpha beta :=
        hrec idx (List.mem_cons_self idx rest) alpha beta hnA hbP hab
      have hrec2 : ∀ i ∈ rest, ∀ a c, NEG_INF ≤ a → c ≤ POS_INF → a < c →
          kmOK ((rec (b.set i (some player)) a c).1) (w i) a c :=
        fun i hi => hrec i (List.mem_cons_of_mem idx hi)
      rw [mmLoop]
      simp only [if_false, Bool.false_eq_true]
      by_cases hcut : min beta ((rec (b.set idx (some player)) alpha beta).1) ≤ alpha
      · -- pruning break after the first child
        have hsa : (rec (b.set idx (some player)) alpha beta).1 ≤ alpha := by
          rcases min_cases beta ((rec (b.set idx (some player)) alpha beta).1) with
            ⟨hm, _⟩ | ⟨hm, _⟩ <;> omega
        have hwle : w idx ≤ (rec (b.set idx (some player)) alpha beta).1 := hkm.1 hsa
        have hlt : (rec (b.set idx (some player)) alpha beta).1 < bs.1 := by omega
        rw [if_pos hcut, if_pos hlt]
        refine ⟨fun _ => ?_, fun h => absurd h (by omega), fun h1 _ => absurd h1 (by omega)⟩
        exact le_trans (valLoop_min_le_mem w (idx :: rest) bs.1 idx
          (List.mem_cons_self idx rest)) hwle
      · -- no break: continue with the rest of the children
        rw [if_neg hcut]
        have hcutgt : alpha < min beta ((rec (b.set idx (some player)) alpha beta).1) := by
          omega
        rcases le_or_lt beta ((rec (b.set idx (some player)) alpha beta).1) with hsge | hslt
        · -- child score failed high: beta unchanged
          have hwge : (rec (b.set idx (some player)) alpha beta).1 ≤ w idx := hkm.2.1 hsge
          have hmin : min beta ((rec (b.set idx (some player)) alpha beta).1) = beta :=
            min_eq_left hsge
          rw [hmin]
          have hb2 : beta ≤ (if (rec (b.set idx (some player)) alpha beta).1 < bs.1
              then ((rec (b.set idx (some player)) alpha beta).1, some idx)
              else bs).1 := by
            split
            · exact hsge
            · exact hbs
          have hb2eq : (if (rec (b.set idx (some player)) alpha beta).1 < bs.1
              then ((rec (b.set idx (some player)) alpha beta).1, some idx)
              else bs).1 = min bs.1 ((rec (b.set idx (some player)) alpha beta).1) := by
            split
            · rename_i hlt
              exact (min_eq_right (le_of_lt hlt)).symm
            · rename_i hnlt
              exact (min_eq_left (by omega)).symm
          have hIH := ih (if (rec (b.set idx (some player)) alpha beta).1 < bs.1
              then ((rec (b.set idx (some player)) alpha beta).1, some idx)
              else bs) beta hb2 hbP hab hrec2
          rw [valLoop_cons_min]
          have hacc : min bs.1 ((rec (b.set idx (some player)) alpha beta).1) ≤
              min bs.1 (w idx) := by
            rcases min_cases bs.1 (w idx) with ⟨hm, _⟩ | ⟨hm, _⟩ <;>
              rcases min_cases bs.1 ((rec (b.set idx (some player)) alpha beta).1) with
                ⟨hm2, _⟩ | ⟨hm2, _⟩ <;> omega
          have hmono : valLoop w false rest (min bs.1 ((rec (b.set idx (some player)) alpha beta).1)) ≤
              valLoop w false rest (min bs.1 (w idx)) :=
            valLoop_min_mono w rest _ _ hacc
          rw [hb2eq] at hIH
          refine ⟨fun h => ?_, fun h => le_trans (hIH.2.1 h) hmono, fun h1 h2 => ?_⟩
          · -- G ≤ alpha
            have hVG := hIH.1 h
            rcases valLoop_min_cases w rest
                (min bs.1 ((rec (b.set idx (some player)) alpha beta).1)) with hc | ⟨i, hi, hc⟩
            · exfalso
              rw [hc] at hVG
              have : beta ≤ min bs.1 ((rec (b.set idx (some player)) alpha beta).1) := by
                rcases min_cases bs.1 ((rec (b.set idx (some player)) alpha beta).1) with
                  ⟨hm, _⟩ | ⟨hm, _⟩ <;> omega
              omega
            · rw [hc] at hVG
              have hWiV : valLoop w false (idx :: rest) bs.1 ≤ w i :=
                valLoop_min_le_mem w (idx :: rest) bs.1 i (List.mem_cons_of_mem idx hi)
              rw [valLoop_cons_min] at hWiV
              exact le_trans hWiV hVG
          · -- alpha < G < beta: exact
            have hGV := hIH.2.2 h1 h2
            rcases valLoop_min_cases w rest
                (min bs.1 ((rec (b.set idx (some player)) alpha beta).1)) with hc | ⟨i, hi, hc⟩
            · exfalso
              rw [hc] at hGV
              have : beta ≤ min bs.1 ((rec (b.set idx (some player)) alpha beta).1) := by
                rcases min_cases bs.1 ((rec (b.set idx (some player)) alpha beta).1) with
                  ⟨hm, _⟩ | ⟨hm, _⟩ <;> omega
              omega
            · have hWiV : valLoop w false (idx :: rest) bs.1 ≤ w i :=
                valLoop_min_le_mem w (idx :: rest) bs.1 i (List.mem_cons_of_mem idx hi)
              rw [valLoop_cons_min] at hWiV
              rw [hGV, hc]
              have hVge : w i ≤ valLoop w false rest (min bs.1 (w idx)) := by
                rw [← hc]
                exact hmono
              omega
        · -- child score inside the window: it is exact, beta drops to it
          have hsgta : alpha < (rec (b.set idx (some player)) alpha beta).1 := by omega
          have hexact : (rec (b.set idx (some player)) alpha beta).1 = w idx :=
            hkm.2.2 hsgta hslt
          have hmin : min beta ((rec (b.set idx (some player)) alpha beta).1) =
              (rec (b.set idx (some player)) alpha beta).1 :=
            min_eq_right (le_of_lt hslt)
          have hlt2 : (rec (b.set idx (some player)) alpha beta).1 < bs.1 := by omega
          rw [hmin, if_pos hlt2]
          have hIH : kmOK ((mmLoop rec false b player rest
                ((rec (b.set idx (some player)) alpha beta).1, some idx)
                alpha ((rec (b.set idx (some player)) alpha beta).1)).1)
              (valLoop w false rest ((rec (b.set idx (some player)) alpha beta).1))
              alpha ((rec (b.set idx (some player)) alpha beta).1) :=
            ih ((rec (b.set idx (some player)) alpha beta).1, some idx)
              ((rec (b.set idx (some player)) alpha beta).1) (le_refl _)
              (by omega) (by omega) hrec2
          rw [valLoop_cons_min]
          have haccV : min bs.1 (w idx) = (rec (b.set idx (some player)) alpha beta).1 := by
            rw [← hexact]
            exact min_eq_right (by omega)
          rw [haccV]
          refine ⟨fun h => hIH.1 h, fun h => ?_, fun h1 h2 => ?_⟩
          · exact hIH.2.1 (by omega)
          · rcases le_or_lt ((rec (b.set idx (some player)) alpha beta).1)
                (mmLoop rec false b player rest
                  ((rec (b.set idx (some player)) alpha beta).1, some idx)
                  alpha ((rec (b.set idx (some player)) alpha beta).1)).1 with hGs | hGs
            · have hGV := hIH.2.1 hGs
              have hVs : valLoop w false rest ((rec (b.set idx (some player)) alpha beta).1) ≤
                  (rec (b.set idx (some player)) alpha beta).1 :=
                valLoop_min_le_acc w rest _
              omega
            · exact hIH.2.2 h1 hGs

theorem minimaxAux_km :
    ∀ (fuel : Nat) (aiM : Mark) (b : Board) (player : Mark) (alpha beta : Int),
      (emptyCells b).length ≤ fuel → NEG_INF ≤ alpha → beta ≤ POS_INF → alpha < beta →
      kmOK ((minimaxAux fuel aiM b player alpha beta).1) (mmVal fuel aiM b player)
        alpha beta := by
  intro fuel
  induction fuel with
  | zero =>
      intro aiM b player alpha beta _ _ _ _
      cases hev : evaluateBoard b with
      | won m l =>
          rw [minimaxAux_won hev, mmVal_won hev]
          split
          · exact kmOK_refl 10 alpha beta
          · exact kmOK_refl (-10) alpha beta
      | draw =>
          rw [minimaxAux_draw hev, mmVal_draw hev]
          exact kmOK_refl 0 alpha beta
      | ongoing =>
          rw [minimaxAux_zero_ongoing hev, mmVal_zero_ongoing hev]
          exact kmOK_refl 0 alpha beta
  | succ fuel ih =>
      intro aiM b player alpha beta hf hna hbp hab
      cases hev : evaluateBoard b with
      | won m l =>
          rw [minimaxAux_won hev, mmVal_won hev]
          split
          · exact kmOK_refl 10 alpha beta
          · exact kmOK_refl (-10) alpha beta
      | draw =>
          rw [minimaxAux_draw hev, mmVal_draw hev]
          exact kmOK_refl 0 alpha beta
      | ongoing =>
          have hrec : ∀ i ∈ emptyCells b, ∀ a c, NEG_INF ≤ a → c ≤ POS_INF → a < c →
              kmOK ((minimaxAux fuel aiM (b.set i (some player)) player.other a c).1)
                (mmVal fuel aiM (b.set i (some player)) player.other) a c :=
            fun i hi a c ha hc hac =>
              ih aiM _ player.other a c (child_emptyCells_le player hi hf) ha hc hac
          by_cases hpm : player = aiM
          · rw [minimaxAux_ongoing_ai hev fuel hpm, mmVal_ongoing_ai hev fuel hpm]
            exact mmLoop_km_max _ b player _ beta hbp (emptyCells b)
              (NEG_INF, (emptyCells b).head?) alpha hna hna hab hrec
          · rw [minimaxAux_ongoing_opp hev fuel hpm, mmVal_ongoing_opp hev fuel hpm]
            exact mmLoop_km_min _ b player _ alpha hna (emptyCells b)
              (POS_INF, (emptyCells b).head?) beta hbp hbp hab hrec

/-- At the root window `(-Infinity, Infinity)` the pruned search score
is exactly the minimax value. -/
theorem minimaxAux_score_full (fuel : Nat) (aiM : Mark) (b : Board) (player : Mark)
    (hf : (emptyCells b).length ≤ fuel) :
    (minimaxAux fuel aiM b player NEG_INF POS_INF).1 = mmVal fuel aiM b player := by
  have hg := minimaxAux_score_mem fuel aiM b player NEG_INF POS_INF hf
  have hb := goodScore_bounds hg
  have hkm := minimaxAux_km fuel aiM b player NEG_INF POS_INF hf (le_refl _) (le_refl _)
    (by unfold NEG_INF POS_INF; omega)
  have hN : NEG_INF = -1000 := rfl
  have hP : POS_INF = 1000 := rfl
  exact hkm.2.2 (by omega) (by omega)

/-! ## Fuel irrelevance: any fuel big enough gives the same result -/

theorem mmLoop_congr (rec1 rec2 : Board → Int → Int → Int × Option Nat)
    (isMax : Bool) (b : Board) (player : Mark) :
    ∀ (cs : List Nat) (best : Int × Option Nat) (alpha beta : Int),
      (∀ i ∈ cs, ∀ a c, rec1 (b.set i (some player)) a c = rec2 (b.set i (some player)) a c) →
      mmLoop rec1 isMax b player cs best alpha beta =
        mmLoop rec2 isMax b player cs best alpha beta := by
  intro cs
  induction cs with
  | nil => intro best alpha beta _; rw [mmLoop, mmLoop]
  | cons idx rest ih =>
      intro best alpha beta h
      rw [mmLoop, mmLoop]
      rw [h idx (List.mem_cons_self idx rest) alpha beta]
      have h2 : ∀ i ∈ rest, ∀ a c,
          rec1 (b.set i (some player)) a c = rec2 (b.set i (some player)) a c :=
        fun i hi => h i (List.mem_cons_of_mem idx hi)
      cases isMax with
      | true =>
          simp only [if_true]
          split
          · rfl
          · exact ih _ _ _ h2
      | false =>
          simp only [if_false, Bool.false_eq_true]
          split
          · rfl
          · exact ih _ _ _ h2

theorem valLoop_congr (w1 w2 : Nat → Int) (isMax : Bool) :
    ∀ (cs : List Nat) (acc : Int),
      (∀ i ∈ cs, w1 i = w2 i) →
      valLoop w1 isMax cs acc = valLoop w2 isMax cs acc := by
  intro cs
  induction cs with
  | nil => intro acc _; rw [valLoop_nil, valLoop_nil]
  | cons idx rest ih =>
      intro acc h
      cases isMax with
      | true =>
          rw [valLoop_cons_max, valLoop_cons_max, h idx (List.mem_cons_self idx rest)]
          exact ih _ (fun i hi => h i (List.mem_cons_of_mem idx hi))
      | false =>
          rw [valLoop_cons_min, valLoop_cons_min, h idx (List.mem_cons_self idx rest)]
          exact ih _ (fun i hi => h i (List.mem_cons_of_mem idx hi))

theorem minimaxAux_fuel_irrel :
    ∀ (f1 f2 : Nat) (aiM : Mark) (b : Board) (player : Mark) (alpha beta : Int),
      (emptyCells b).length ≤ f1 → (emptyCells b).length ≤ f2 →
      minimaxAux f1 aiM b player alpha beta = minimaxAux f2 aiM b player alpha beta := by
  intro f1
  induction f1 with
  | zero =>
      intro f2 aiM b player alpha beta h1 h2
      cases hev : evaluateBoard b with
      | won m l => rw [minimaxAux_won hev, minimaxAux_won hev]
      | draw => rw [minimaxAux_draw hev, minimaxAux_draw hev]
      | ongoing =>
          exfalso
          have := evaluateBoard_ongoing_ne_nil hev
          have : emptyCells b = [] := List.length_eq_zero.mp (Nat.le_zero.mp h1)
          exact absurd this (evaluateBoard_ongoing_ne_nil hev)
  | succ a ih =>
      intro f2 aiM b player alpha beta h1 h2
      cases hev : evaluateBoard b with
      | won m l => rw [minimaxAux_won hev, minimaxAux_won hev]
      | draw => rw [minimaxAux_draw hev, minimaxAux_draw hev]
      | ongoing =>
          cases f2 with
          | zero =>
              exfalso
              have : emptyCells b = [] := List.length_eq_zero.mp (Nat.le_zero.mp h2)
              exact absurd this (evaluateBoard_ongoing_ne_nil hev)
          | succ c =>
              have hpoint : ∀ i ∈ emptyCells b, ∀ a2 c2,
                  minimaxAux a aiM (b.set i (some player)) player.other a2 c2 =
                    minimaxAux c aiM (b.set i (some player)) player.other a2 c2 :=
                fun i hi a2 c2 => ih c aiM _ player.other a2 c2
                  (child_emptyCells_le player hi h1) (child_emptyCells_le player hi h2)
              by_cases hpm : player = aiM
              · rw [minimaxAux_ongoing_ai hev a hpm, minimaxAux_ongoing_ai hev c hpm]
                exact mmLoop_congr _ _ true b player (emptyCells b) _ alpha beta hpoint
              · rw [minimaxAux_ongoing_opp hev a hpm, minimaxAux_ongoing_opp hev c hpm]
                exact mmLoop_congr _ _ false b player (emptyCells b) _ alpha beta hpoint

theorem mmVal_fuel_irrel :
    ∀ (f1 f2 : Nat) (aiM : Mark) (b : Board) (player : Mark),
      (emptyCells b).length ≤ f1 → (emptyCells b).length ≤ f2 →
      mmVal f1 aiM b player = mmVal f2 aiM b player := by
  intro f1
  induction f1 with
  | zero =>
      intro f2 aiM b player h1 h2
      cases hev : evaluateBoard b with
      | won m l => rw [mmVal_won hev, mmVal_won hev]
      | draw => rw [mmVal_draw hev, mmVal_draw hev]
      | ongoing =>
          exfalso
          have : emptyCells b = [] := List.length_eq_zero.mp (Nat.le_zero.mp h1)
          exact absurd this (evaluateBoard_ongoing_ne_nil hev)
  | succ a ih =>
      intro f2 aiM b player h1 h2
      cases hev : evaluateBoard b with
      | won m l => rw [mmVal_won hev, mmVal_won hev]
      | draw => rw [mmVal_draw hev, mmVal_draw hev]
      | ongoing =>
          cases f2 with
          | zero =>
              exfalso
              have : emptyCells b = [] := List.length_eq_zero.mp (Nat.le_zero.mp h2)
              exact absurd this (evaluateBoard_ongoing_ne_nil hev)
          | succ c =>
              have hpoint : ∀ i ∈ emptyCells b,
                  mmVal a aiM (b.set i (some player)) player.other =
                    mmVal c aiM (b.set i (some player)) player.other :=
                fun i hi => ih c aiM _ player.other
                  (child_emptyCells_le player hi h1) (child_emptyCells_le player hi h2)
              by_cases hpm : player = aiM
              · rw [mmVal_ongoing_ai hev a hpm, mmVal_ongoing_ai hev c hpm]
                exact valLoop_congr _ _ true (emptyCells b) _ hpoint
              · rw [mmVal_ongoing_opp hev a hpm, mmVal_ongoing_opp hev c hpm]
                exact valLoop_congr _ _ false (emptyCells b) _ hpoint

/-! ## The root of the search: exact score and a value-achieving index -/

theorem mmLoop_root_max (rec : Board → Int → Int → Int × Option Nat)
    (b : Board) (player : Mark) (w : Nat → Int) :
    ∀ (cs : List Nat) (bs : Int × Option Nat) (alpha : Int),
      bs.1 = alpha → NEG_INF ≤ alpha → alpha ≤ 10 →
      (∀ i ∈ cs, ∀ a c, NEG_INF ≤ a → c ≤ POS_INF → a < c →
        kmOK ((rec (b.set i (some player)) a c).1) (w i) a c) →
      (∀ i ∈ cs, ∀ a c, goodScore ((rec (b.set i (some player)) a c).1)) →
      (mmLoop rec true b player cs bs alpha POS_INF).1 = valLoop w true cs bs.1 ∧
      (mmLoop rec true b player cs bs alpha POS_INF = bs ∨
        ∃ i ∈ cs, (mmLoop rec true b player cs bs alpha POS_INF).2 = some i ∧
          (mmLoop rec true b player cs bs alpha POS_INF).1 = w i) := by
  intro cs
  induction cs with
  | nil =>
      intro bs alpha hbsa _ _ _ _
      rw [mmLoop, valLoop_nil]
      exact ⟨rfl, Or.inl rfl⟩
  | cons idx rest ih =>
      intro bs alpha hbsa hna ha10 hrec hrecG
      have hN : NEG_INF = -1000 := rfl
      have hP : POS_INF = 1000 := rfl
      have hgood : goodScore ((rec (b.set idx (some player)) alpha POS_INF).1) :=
        hrecG idx (List.mem_cons_self idx rest) alpha POS_INF
      have hsb := goodScore_bounds hgood
      have hkm : kmOK ((rec (b.set idx (some player)) alpha POS_INF).1) (w idx)
          alpha POS_INF :=
        hrec idx (List.mem_cons_self idx rest) alpha POS_INF hna (le_refl _) (by omega)
      have hrec2 : ∀ i ∈ rest, ∀ a c, NEG_INF ≤ a → c ≤ POS_INF → a < c →
          kmOK ((rec (b.set i (some player)) a c).1) (w i) a c :=
        fun i hi => hrec i (List.mem_cons_of_mem idx hi)
      have hrecG2 : ∀ i ∈ rest, ∀ a c, goodScore ((rec (b.set i (some player)) a c).1) :=
        fun i hi => hrecG i (List.mem_cons_of_mem idx hi)
      rw [mmLoop]
      simp only [if_true]
      rw [valLoop_cons_max]
      have hnocut : ¬ POS_INF ≤ max alpha ((rec (b.set idx (some player)) alpha POS_INF).1) := by
        rcases max_cases alpha ((rec (b.set idx (some player)) alpha POS_INF).1) with
          ⟨hm, _⟩ | ⟨hm, _⟩ <;> omega
      rw [if_neg hnocut]
      rcases lt_or_le bs.1 ((rec (b.set idx (some player)) alpha POS_INF).1) with hupd | hupd
      · -- the child strictly improves the running best
        have hgt : (rec (b.set idx (some player)) alpha POS_INF).1 > bs.1 := hupd
        rw [if_pos hgt]
        have halt : alpha < (rec (b.set idx (some player)) alpha POS_INF).1 := by omega
        have hexact : (rec (b.set idx (some player)) alpha POS_INF).1 = w idx :=
          hkm.2.2 halt (by omega)
        have hmax : max alpha ((rec (b.set idx (some player)) alpha POS_INF).1) =
            (rec (b.set idx (some player)) alpha POS_INF).1 :=
          max_eq_right (le_of_lt halt)
        rw [hmax]
        have hIH := ih ((rec (b.set idx (some player)) alpha POS_INF).1, some idx)
          ((rec (b.set idx (some player)) alpha POS_INF).1) rfl (by omega) (by omega)
          hrec2 hrecG2
        have haccV : max bs.1 (w idx) = (rec (b.set idx (some player)) alpha POS_INF).1 := by
          rw [← hexact]
          exact max_eq_right (by omega)
        rw [haccV]
        refine ⟨hIH.1, ?_⟩
        rcases hIH.2 with hl | ⟨i, hi, h2, h3⟩
        · right
          refine ⟨idx, List.mem_cons_self idx rest, ?_, ?_⟩
          · rw [hl]
          · rw [hl]
            exact hexact
        · right
          exact ⟨i, List.mem_cons_of_mem idx hi, h2, h3⟩
      · -- the child does not improve the running best
        have hngt : ¬ (rec (b.set idx (some player)) alpha POS_INF).1 > bs.1 := by omega
        rw [if_neg hngt]
        have hsle : (rec (b.set idx (some player)) alpha POS_INF).1 ≤ alpha := by omega
        have hwle : w idx ≤ (rec (b.set idx (some player)) alpha POS_INF).1 := hkm.1 hsle
        have hmax : max alpha ((rec (b.set idx (some player)) alpha POS_INF).1) = alpha :=
          max_eq_left hsle
        rw [hmax]
        have hIH := ih bs alpha hbsa hna ha10 hrec2 hrecG2
        have haccV : max bs.1 (w idx) = bs.1 := max_eq_left (by omega)
        rw [haccV]
        refine ⟨hIH.1, ?_⟩
        rcases hIH.2 with hl | ⟨i, hi, h2, h3⟩
        · exact Or.inl hl
        · exact Or.inr ⟨i, List.mem_cons_of_mem idx hi, h2, h3⟩

/-- At an ongoing board with the computer to move, the root call of
`minimax` with the full window returns the exact minimax value together
with the index of an empty cell whose child value equals it. -/
theorem minimax_root_spec (fuel : Nat) (aiM : Mark) (b : Board)
    (hev : evaluateBoard b = Outcome.ongoing)
    (hf : (emptyCells b).length ≤ fuel + 1) :
    (minimaxAux (fuel + 1) aiM b aiM NEG_INF POS_INF).1 = mmVal (fuel + 1) aiM b aiM ∧
    ∃ i ∈ emptyCells b,
      (minimaxAux (fuel + 1) aiM b aiM NEG_INF POS_INF).2 = some i ∧
        mmVal fuel aiM (b.set i (some aiM)) aiM.other =
          (minimaxAux (fuel + 1) aiM b aiM NEG_INF POS_INF).1 := by
  have hN : NEG_INF = -1000 := rfl
  have hP : POS_INF = 1000 := rfl
  have hrec : ∀ i ∈ emptyCells b, ∀ a c, NEG_INF ≤ a → c ≤ POS_INF → a < c →
      kmOK ((minimaxAux fuel aiM (b.set i (some aiM)) aiM.other a c).1)
        (mmVal fuel aiM (b.set i (some aiM)) aiM.other) a c :=
    fun i hi a c ha hc hac =>
      minimaxAux_km fuel aiM _ aiM.other a c (child_emptyCells_le aiM hi hf) ha hc hac
  have hrecG : ∀ i ∈ emptyCells b, ∀ a c,
      goodScore ((minimaxAux fuel aiM (b.set i (some aiM)) aiM.other a c).1) :=
    fun i hi a c => minimaxAux_score_mem fuel aiM _ aiM.other a c
      (child_emptyCells_le aiM hi hf)
  have hroot := mmLoop_root_max
    (fun b2 a2 b3 => minimaxAux fuel aiM b2 aiM.other a2 b3) b aiM
    (fun i => mmVal fuel aiM (b.set i (some aiM)) aiM.other)
    (emptyCells b) (NEG_INF, (emptyCells b).head?) NEG_INF rfl (le_refl _)
    (by omega) hrec hrecG
  rw [minimaxAux_ongoing_ai hev fuel rfl]
  constructor
  · rw [mmVal_ongoing_ai hev fuel rfl]
    exact hroot.1
  · rcases hroot.2 with hl | ⟨i, hi, h2, h3⟩
    · exfalso
      have hgood : goodScore ((mmLoop
          (fun b2 a2 b3 => minimaxAux fuel aiM b2 aiM.other a2 b3) true b aiM
          (emptyCells b) (NEG_INF, (emptyCells b).head?) NEG_INF POS_INF).1) := by
        rw [← minimaxAux_ongoing_ai hev fuel rfl]
        exact minimaxAux_score_mem (fuel + 1) aiM b aiM NEG_INF POS_INF hf
      rw [hl] at hgood
      have := goodScore_bounds hgood
      simp only at this
      omega
    · exact ⟨i, hi, h2, h3.symm⟩

/-! ## The unpruned search computes exactly the minimax value -/

theorem mmLoopNP_score (rec : Board → Int → Int → Int × Option Nat)
    (isMax : Bool) (b : Board) (player : Mark) (w : Nat → Int) :
    ∀ (cs : List Nat) (bs : Int × Option Nat) (alpha beta : Int),
      (∀ i ∈ cs, ∀ a c, (rec (b.set i (some player)) a c).1 = w i) →
      (mmLoopNP rec isMax b player cs bs alpha beta).1 = valLoop w isMax cs bs.1 := by
  intro cs
  induction cs with
  | nil => intro bs alpha beta _; rw [mmLoopNP, valLoop_nil]
  | cons idx rest ih =>
      intro bs alpha beta h
      have hh : (rec (b.set idx (some player)) alpha beta).1 = w idx :=
        h idx (List.mem_cons_self idx rest) alpha beta
      have h2 : ∀ i ∈ rest, ∀ a c, (rec (b.set i (some player)) a c).1 = w i :=
        fun i hi => h i (List.mem_cons_of_mem idx hi)
      rw [mmLoopNP]
      cases isMax with
      | true =>
          simp only [if_true]
          rw [valLoop_cons_max, ih _ _ _ h2]
          congr 1
          split
          · rename_i hgt
            simp only
            rw [hh] at hgt
            rw [hh]
            exact (max_eq_right (le_of_lt hgt)).symm
          · rename_i hngt
            rw [hh] at hngt
            exact (max_eq_left (by omega)).symm
      | false =>
          simp only [if_false, Bool.false_eq_true]
          rw [valLoop_cons_min, ih _ _ _ h2]
          congr 1
          split
          · rename_i hlt
            simp only
            rw [hh] at hlt
            rw [hh]
            exact (min_eq_right (le_of_lt hlt)).symm
          · rename_i hnlt
            rw [hh] at hnlt
            exact (min_eq_left (by omega)).symm

theorem minimaxNP_score_eq_mmVal :
    ∀ (fuel : Nat) (aiM : Mark) (b : Board) (player : Mark) (alpha beta : Int),
      (minimaxNP fuel aiM b player alpha beta).1 = mmVal fuel aiM b player := by
  intro fuel
  induction fuel with
  | zero =>
      intro aiM b player alpha beta
      cases hev : evaluateBoard b with
      | won m l =>
          rw [minimaxNP_won hev, mmVal_won hev]
          split <;> rfl
      | draw => rw [minimaxNP_draw hev, mmVal_draw hev]
      | ongoing => rw [minimaxNP_zero_ongoing hev, mmVal_zero_ongoing hev]
  | succ fuel ih =>
      intro aiM b player alpha beta
      cases hev : evaluateBoard b with
      | won m l =>
          rw [minimaxNP_won hev, mmVal_won hev]
          split <;> rfl
      | draw => rw [minimaxNP_draw hev, mmVal_draw hev]
      | ongoing =>
          have hpoint : ∀ i ∈ emptyCells b, ∀ a c,
              (minimaxNP fuel aiM (b.set i (some player)) player.other a c).1 =
                mmVal fuel aiM (b.set i (some player)) player.other :=
            fun i _ a c => ih aiM _ player.other a c
          by_cases hpm : player = aiM
          · rw [minimaxNP_ongoing_ai hev fuel hpm, mmVal_ongoing_ai hev fuel hpm]
            exact mmLoopNP_score _ true b player _ (emptyCells b) _ alpha beta hpoint
          · rw [minimaxNP_ongoing_opp hev fuel hpm, mmVal_ongoing_opp hev fuel hpm]
            exact mmLoopNP_score _ false b player _ (emptyCells b) _ alpha beta hpoint

/-! ## The mutating search restores the board -/

theorem set_set_cell (b : Board) : ∀ i (v1 v2 : Cell), (b.set i v1).set i v2 = b.set i v2 := by
  induction b with
  | nil => intro i v1 v2; rfl
  | cons c rest ih =>
      intro i v1 v2
      cases i with
      | zero => rfl
      | succ i2 => simp [List.set, ih i2 v1 v2]

theorem mmLoopMut_spec (recM : Board → Int → Int → (Int × Option Nat) × Board)
    (rec : Board → Int → Int → Int × Option Nat)
    (isMax : Bool) (player : Mark) (b : Board) :
    ∀ (cs : List Nat) (bs : Int × Option Nat) (alpha beta : Int),
      (∀ i ∈ cs, cellAt b i = none) →
      (∀ i ∈ cs, ∀ a c, recM (b.set i (some player)) a c =
        (rec (b.set i (some player)) a c, b.set i (some player))) →
      mmLoopMut recM isMax player cs b bs alpha beta =
        (mmLoop rec isMax b player cs bs alpha beta, b) := by
  intro cs
  induction cs with
  | nil => intro bs alpha beta _ _; rw [mmLoopMut, mmLoop]
  | cons idx rest ih =>
      intro bs alpha beta hempt hrec
      have hr : recM (b.set idx (some player)) alpha beta =
          (rec (b.set idx (some player)) alpha beta, b.set idx (some player)) :=
        hrec idx (List.mem_cons_self idx rest) alpha beta
      have hrestore : ((recM (b.set idx (some player)) alpha beta).2).set idx none = b := by
        rw [hr]
        simp only
        rw [set_set_cell]
        exact set_none_cancel b idx (hempt idx (List.mem_cons_self idx rest))
      have hempt2 : ∀ i ∈ rest, cellAt b i = none :=
        fun i hi => hempt i (List.mem_cons_of_mem idx hi)
      have hrec2 : ∀ i ∈ rest, ∀ a c, recM (b.set i (some player)) a c =
          (rec (b.set i (some player)) a c, b.set i (some player)) :=
        fun i hi => hrec i (List.mem_cons_of_mem idx hi)
      rw [mmLoopMut, mmLoop]
      rw [hrestore, hr]
      simp only
      cases isMax with
      | true =>
          simp only [if_true]
          split
          · rfl
          · exact ih _ _ _ hempt2 hrec2
      | false =>
          simp only [if_false, Bool.false_eq_true]
          split
          · rfl
          · exact ih _ _ _ hempt2 hrec2

/-- The state-threaded search returns the same result as the
functional one and hands the board buffer back exactly as it received
it: every trial placement is undone, including on a pruning break. -/
theorem minimaxMut_spec :
    ∀ (fuel : Nat) (aiM : Mark) (b : Board) (player : Mark) (alpha beta : Int),
      minimaxMut fuel aiM b player alpha beta =
        (minimaxAux fuel aiM b player alpha beta, b) := by
  intro fuel
  induction fuel with
  | zero =>
      intro aiM b player alpha beta
      cases hev : evaluateBoard b with
      | won m l =>
          rw [minimaxMut_won hev, minimaxAux_won hev]
      | draw => rw [minimaxMut_draw hev, minimaxAux_draw hev]
      | ongoing => rw [minimaxMut_zero_ongoing hev, minimaxAux_zero_ongoing hev]
  | succ fuel ih =>
      intro aiM b player alpha beta
      cases hev : evaluateBoard b with
      | won m l =>
          rw [minimaxMut_won hev, minimaxAux_won hev]
      | draw => rw [minimaxMut_draw hev, minimaxAux_draw hev]
      | ongoing =>
          have hempt : ∀ i ∈ emptyCells b, cellAt b i = none :=
            fun i hi => (mem_emptyCells hi).2
          have hrec : ∀ i ∈ emptyCells b, ∀ a c,
              minimaxMut fuel aiM (b.set i (some player)) player.other a c =
                (minimaxAux fuel aiM (b.set i (some player)) player.other a c,
                  b.set i (some player)) :=
            fun i _ a c => ih aiM _ player.other a c
          by_cases hpm : player = aiM
          · rw [minimaxMut_ongoing_ai hev fuel hpm, minimaxAux_ongoing_ai hev fuel hpm]
            exact mmLoopMut_spec _ _ true player b (emptyCells b) _ alpha beta hempt hrec
          · rw [minimaxMut_ongoing_opp hev fuel hpm, minimaxAux_ongoing_opp hev fuel hpm]
            exact mmLoopMut_spec _ _ false player b (emptyCells b) _ alpha beta hempt hrec

/-! ## Soundness and completeness of the certificate checker -/

theorem Mark.other_ne (m : Mark) : m.other ≠ m := by
  cases m <;> decide

theorem Mark.other_eq_of_ne {a b : Mark} (h : a ≠ b) : a.other = b := by
  cases a <;> cases b <;> first | rfl | exact absurd rfl h

theorem marksCount_child {b : Board} {i : Nat} (m : Mark) (hi : i ∈ emptyCells b) :
    marksCount (b.set i (some m)) = marksCount b + 1 :=
  marksCount_set b i m (mem_emptyCells hi).2 (mem_emptyCells hi).1

theorem selectMove_opening {b : Board} (aiM : Mark) (h : marksCount b ≤ 1) :
    selectMove b aiM = openingOrder.find? (fun i => (cellAt b i).isNone) := by
  have h2 : (b.filter (fun c => c.isSome)).length ≤ 1 := h
  unfold selectMove
  rw [if_pos h2]

theorem selectMove_search {b : Board} (aiM : Mark) (h : ¬ marksCount b ≤ 1) :
    selectMove b aiM = (minimaxAux 9 aiM b aiM NEG_INF POS_INF).2 := by
  have h2 : ¬ (b.filter (fun c => c.isSome)).length ≤ 1 := h
  unfold selectMove
  rw [if_neg h2]


theorem certSafe_won {b : Board} {m : Mark} {l : Line}
    (h : evaluateBoard b = Outcome.won m l) (fuel : Nat) (aiM cur : Mark) :
    certSafe fuel aiM b cur = decide (m = aiM) := by
  cases fuel with
  | zero => conv_lhs => rw [certSafe]; rw [h]
  | succ fuel => conv_lhs => rw [certSafe]; rw [h]

theorem certSafe_draw {b : Board} (h : evaluateBoard b = Outcome.draw)
    (fuel : Nat) (aiM cur : Mark) :
    certSafe fuel aiM b cur = true := by
  cases fuel with
  | zero => conv_lhs => rw [certSafe]; rw [h]
  | succ fuel => conv_lhs => rw [certSafe]; rw [h]

theorem certSafe_zero_ongoing {b : Board} (h : evaluateBoard b = Outcome.ongoing)
    (aiM cur : Mark) :
    certSafe 0 aiM b cur = false := by
  conv_lhs => rw [certSafe]
  rw [h]

theorem certSafe_ongoing_ai {b : Board} (h : evaluateBoard b = Outcome.ongoing)
    (fuel : Nat) {aiM cur : Mark} (hcur : cur = aiM) :
    certSafe (fuel + 1) aiM b cur =
      (certExplore b).any
        (fun i => certSafe fuel aiM (b.set i (some cur)) cur.other) := by
  subst hcur
  conv_lhs => rw [certSafe]
  rw [h]
  simp only [eq_self_iff_true, if_true]

theorem certSafe_ongoing_opp {b : Board} (h : evaluateBoard b = Outcome.ongoing)
    (fuel : Nat) {aiM cur : Mark} (hcur : ¬ cur = aiM) :
    certSafe (fuel + 1) aiM b cur =
      (emptyCells b).all
        (fun i => certSafe fuel aiM (b.set i (some cur)) cur.other) := by
  conv_lhs => rw [certSafe]
  rw [h]
  simp only [if_neg hcur]

theorem mem_certExplore {b : Board} {i : Nat} (h : i ∈ certExplore b) :
    i < 9 ∧ cellAt b i = none := by
  have h2 := List.mem_filter.mp h
  refine ⟨?_, of_decide_eq_true h2.2⟩
  have : ∀ j ∈ openingOrder, j < 9 := by decide
  exact this i h2.1

theorem mem_emptyCells_of (b : Board) (i : Nat) (hlt : i < b.length)
    (hc : cellAt b i = none) : i ∈ emptyCells b :=
  (mem_emptyCellsAux b 0 i).mpr ⟨i, by omega, hlt, hc⟩

theorem certSafe_sound :
    ∀ (fuel : Nat) (aiM : Mark) (b : Board) (cur : Mark),
      b.length = 9 →
      (emptyCells b).length ≤ fuel →
      certSafe fuel aiM b cur = true → 0 ≤ mmVal fuel aiM b cur := by
  intro fuel
  induction fuel with
  | zero =>
      intro aiM b cur _ hf hsafe
      cases hev : evaluateBoard b with
      | won m l =>
          rw [certSafe_won hev] at hsafe
          rw [mmVal_won hev, if_pos (of_decide_eq_true hsafe)]
          decide
      | draw => rw [mmVal_draw hev]
      | ongoing =>
          rw [certSafe_zero_ongoing hev] at hsafe
          cases hsafe
  | succ fuel ih =>
      intro aiM b cur h9 hf hsafe
      cases hev : evaluateBoard b with
      | won m l =>
          rw [certSafe_won hev] at hsafe
          rw [mmVal_won hev, if_pos (of_decide_eq_true hsafe)]
          decide
      | draw => rw [mmVal_draw hev]
      | ongoing =>
          by_cases hcur : cur = aiM
          · rw [certSafe_ongoing_ai hev fuel hcur] at hsafe
            rcases List.any_eq_true.mp hsafe with ⟨i, hi, hchild⟩
            have hmem := mem_certExplore hi
            have hiempty : i ∈ emptyCells b :=
              mem_emptyCells_of b i (by omega) hmem.2
            have h9c : (b.set i (some cur)).length = 9 := by
              rw [List.length_set]; exact h9
            have hchildVal : 0 ≤ mmVal fuel aiM (b.set i (some cur)) cur.other :=
              ih aiM _ cur.other h9c (child_emptyCells_le cur hiempty hf) hchild
            rw [mmVal_ongoing_ai hev fuel hcur]
            calc (0 : Int) ≤ mmVal fuel aiM (b.set i (some cur)) cur.other := hchildVal
              _ ≤ _ := valLoop_max_ge_mem _ (emptyCells b) NEG_INF i hiempty
          · rw [certSafe_ongoing_opp hev fuel hcur] at hsafe
            have hall := List.all_eq_true.mp hsafe
            rw [mmVal_ongoing_opp hev fuel hcur]
            rcases valLoop_min_cases
                (fun i => mmVal fuel aiM (b.set i (some cur)) cur.other)
                (emptyCells b) POS_INF with hc | ⟨i, hi, hc⟩
            · rw [hc]; decide
            · rw [hc]
              have h9c : (b.set i (some cur)).length = 9 := by
                rw [List.length_set]; exact h9
              exact ih aiM _ cur.other h9c (child_emptyCells_le cur hi hf) (hall i hi)

/-- At an ongoing board with the opponent to move, every opponent move
leads to a board whose value for the computer is at least the current
one (the opponent can only choose among the minimum's arguments). -/
theorem mmVal_opp_child_ge {b : Board} (hev : evaluateBoard b = Outcome.ongoing)
    (fuel : Nat) {aiM cur : Mark} (hcur : ¬ cur = aiM) {i : Nat}
    (hi : i ∈ emptyCells b) :
    mmVal (fuel + 1) aiM b cur ≤ mmVal fuel aiM (b.set i (some cur)) cur.other := by
  rw [mmVal_ongoing_opp hev fuel hcur]
  exact valLoop_min_le_mem _ (emptyCells b) POS_INF i hi

/-! ## Opening value facts, established by evaluation -/

set_option maxRecDepth 100000 in
set_option maxHeartbeats 8000000 in
theorem certX4 : certSafe 8 Mark.X
    [none, none, none, none, some Mark.X, none, none, none, none] Mark.O = true := by
  decide

set_option maxRecDepth 100000 in
set_option maxHeartbeats 8000000 in
theorem certO0 : certSafe 7 Mark.O
    [some Mark.X, none, none,
     none, some Mark.O, none,
     none, none, none] Mark.X = true := by
  decide

set_option maxRecDepth 100000 in
set_option maxHeartbeats 8000000 in
theorem certO1 : certSafe 7 Mark.O
    [none, some Mark.X, none,
     none, some Mark.O, none,
     none, none, none] Mark.X = true := by
  decide

set_option maxRecDepth 100000 in
set_option maxHeartbeats 8000000 in
theorem certO2 : certSafe 7 Mark.O
    [none, none, some Mark.X,
     none, some Mark.O, none,
     none, none, none] Mark.X = true := by
  decide

set_option maxRecDepth 100000 in
set_option maxHeartbeats 8000000 in
theorem certO3 : certSafe 7 Mark.O
    [none, none, none,
     some Mark.X, some Mark.O, none,
     none, none, none] Mark.X = true := by
  decide

set_option maxRecDepth 100000 in
set_option maxHeartbeats 8000000 in
theorem certO4 : certSafe 7 Mark.O
    [some Mark.O, none, none,
     none, some Mark.X, none,
     none, none, none] Mark.X = true := by
  decide

set_option maxRecDepth 100000 in
set_option maxHeartbeats 8000000 in
theorem certO5 : certSafe 7 Mark.O
    [none, none, none,
     none, some Mark.O, some Mark.X,
     none, none, none] Mark.X = true := by
  decide

set_option maxRecDepth 100000 in
set_option maxHeartbeats 8000000 in
theorem certO6 : certSafe 7 Mark.O
    [none, none, none,
     none, some Mark.O, none,
     some Mark.X, none, none] Mark.X = true := by
  decide

set_option maxRecDepth 100000 in
set_option maxHeartbeats 8000000 in
theorem certO7 : certSafe 7 Mark.O
    [none, none, none,
     none, some Mark.O, none,
     none, some Mark.X, none] Mark.X = true := by
  decide

set_option maxRecDepth 100000 in
set_option maxHeartbeats 8000000 in
theorem certO8 : certSafe 7 Mark.O
    [none, none, none,
     none, some Mark.O, none,
     none, none, some Mark.X] Mark.X = true := by
  decide

/-! ## The game invariant: the computer is never behind -/

/-- Invariant along every game in which the computer plays via the move
selector: the board keeps 9 cells, and the position is the initial one,
or one of the nine first-move positions the opening shortcut answers,
or a position whose minimax value for the computer is non-negative and
with enough marks that the selector runs the search when it is the
computer's turn. -/
theorem AIGame_inv {aiM : Mark} :
    ∀ {b : Board} {cur : Mark}, AIGame aiM b cur →
      b.length = 9 ∧
      ((b = emptyBoard ∧ cur = Mark.X) ∨
        (aiM = Mark.O ∧ cur = Mark.O ∧
          ∃ k ∈ emptyCells emptyBoard, b = emptyBoard.set k (some Mark.X)) ∨
        (0 ≤ mmVal (emptyCells b).length aiM b cur ∧
          (cur = aiM → 2 ≤ marksCount b) ∧ (cur ≠ aiM → 1 ≤ marksCount b))) := by
  intro b cur hg
  induction hg with
  | init => exact ⟨by decide, Or.inl ⟨rfl, rfl⟩⟩
  | @aiStep b i hgame hev hsel ih =>
      obtain ⟨h9, hd⟩ := ih
      rcases hd with ⟨hb, haiX⟩ | ⟨haiO, hcurO, k, hk, hb⟩ | ⟨hval, hm1, hm2⟩
      · -- opening move of the computer as X on the empty board
        subst haiX
        subst hb
        have h4 : selectMove emptyBoard Mark.X = some 4 := by decide
        rw [h4] at hsel
        injection hsel with hi2
        subst hi2
        refine ⟨by decide, Or.inr (Or.inr ⟨?_, ?_, ?_⟩)⟩
        · exact certSafe_sound 8 Mark.X (emptyBoard.set 4 (some Mark.X)) Mark.X.other
            (by decide) (by decide) certX4
        · intro h
          exact absurd h (by decide)
        · intro _
          decide
      · -- shortcut reply of the computer as O to X's first move
        subst haiO
        subst hb
        have hk2 : k ∈ ([0, 1, 2, 3, 4, 5, 6, 7, 8] : List Nat) := hk
        fin_cases hk2
        · -- X's first move at 0
          have hsm : selectMove (emptyBoard.set 0 (some Mark.X)) Mark.O = some 4 := by
            decide
          rw [hsm] at hsel
          injection hsel with hi2
          subst hi2
          refine ⟨by decide, Or.inr (Or.inr ⟨?_, ?_, ?_⟩)⟩
          · exact certSafe_sound 7 Mark.O
              ((emptyBoard.set 0 (some Mark.X)).set 4 (some Mark.O)) Mark.O.other
              (by decide) (by decide) certO0
          · intro h
            exact absurd h (by decide)
          · intro _
            decide
        · -- X's first move at 1
          have hsm : selectMove (emptyBoard.set 1 (some Mark.X)) Mark.O = some 4 := by
            decide
          rw [hsm] at hsel
          injection hsel with hi2
          subst hi2
          refine ⟨by decide, Or.inr (Or.inr ⟨?_, ?_, ?_⟩)⟩
          · exact certSafe_sound 7 Mark.O
              ((emptyBoard.set 1 (some Mark.X)).set 4 (some Mark.O)) Mark.O.other
              (by decide) (by decide) certO1
          · intro h
            exact absurd h (by decide)
          · intro _
            decide
        · -- X's first move at 2
          have hsm : selectMove (emptyBoard.set 2 (some Mark.X)) Mark.O = some 4 := by
            decide
          rw [hsm] at hsel
          injection hsel with hi2
          subst hi2
          refine ⟨by decide, Or.inr (Or.inr ⟨?_, ?_, ?_⟩)⟩
          · exact certSafe_sound 7 Mark.O
              ((emptyBoard.set 2 (some Mark.X)).set 4 (some Mark.O)) Mark.O.other
              (by decide) (by decide) certO2
          · intro h
            exact absurd h (by decide)
          · intro _
            decide
        · -- X's first move at 3
          have hsm : selectMove (emptyBoard.set 3 (some Mark.X)) Mark.O = some 4 := by
            decide
          rw [hsm] at hsel
          injection hsel with hi2
          subst hi2
          refine ⟨by decide, Or.inr (Or.inr ⟨?_, ?_, ?_⟩)⟩
          · exact certSafe_sound 7 Mark.O
              ((emptyBoard.set 3 (some Mark.X)).set 4 (some Mark.O)) Mark.O.other
              (by decide) (by decide) certO3
          · intro h
            exact absurd h (by decide)
          · intro _
            decide
        · -- X's first move at 4
          have hsm : selectMove (emptyBoard.set 4 (some Mark.X)) Mark.O = some 0 := by
            decide
          rw [hsm] at hsel
          injection hsel with hi2
          subst hi2
          refine ⟨by decide, Or.inr (Or.inr ⟨?_, ?_, ?_⟩)⟩
          · exact certSafe_sound 7 Mark.O
              ((emptyBoard.set 4 (some Mark.X)).set 0 (some Mark.O)) Mark.O.other
              (by decide) (by decide) certO4
          · intro h
            exact absurd h (by decide)
          · intro _
            decide
        · -- X's first move at 5
          have hsm : selectMove (emptyBoard.set 5 (some Mark.X)) Mark.O = some 4 := by
            decide
          rw [hsm] at hsel
          injection hsel with hi2
          subst hi2
          refine ⟨by decide, Or.inr (Or.inr ⟨?_, ?_, ?_⟩)⟩
          · exact certSafe_sound 7 Mark.O
              ((emptyBoard.set 5 (some Mark.X)).set 4 (some Mark.O)) Mark.O.other
              (by decide) (by decide) certO5
          · intro h
            exact absurd h (by decide)
          · intro _
            decide
        · -- X's first move at 6
          have hsm : selectMove (emptyBoard.set 6 (some Mark.X)) Mark.O = some 4 := by
            decide
          rw [hsm] at hsel
          injection hsel with hi2
          subst hi2
          refine ⟨by decide, Or.inr (Or.inr ⟨?_, ?_, ?_⟩)⟩
          · exact certSafe_sound 7 Mark.O
              ((emptyBoard.set 6 (some Mark.X)).set 4 (some Mark.O)) Mark.O.other
              (by decide) (by decide) certO6
          · intro h
            exact absurd h (by decide)
          · intro _
            decide
        · -- X's first move at 7
          have hsm : selectMove (emptyBoard.set 7 (some Mark.X)) Mark.O = some 4 := by
            decide
          rw [hsm] at hsel
          injection hsel with hi2
          subst hi2
          refine ⟨by decide, Or.inr (Or.inr ⟨?_, ?_, ?_⟩)⟩
          · exact certSafe_sound 7 Mark.O
              ((emptyBoard.set 7 (some Mark.X)).set 4 (some Mark.O)) Mark.O.other
              (by decide) (by decide) certO7
          · intro h
            exact absurd h (by decide)
          · intro _
            decide
        · -- X's first move at 8
          have hsm : selectMove (emptyBoard.set 8 (some Mark.X)) Mark.O = some 4 := by
            decide
          rw [hsm] at hsel
          injection hsel with hi2
          subst hi2
          refine ⟨by decide, Or.inr (Or.inr ⟨?_, ?_, ?_⟩)⟩
          · exact certSafe_sound 7 Mark.O
              ((emptyBoard.set 8 (some Mark.X)).set 4 (some Mark.O)) Mark.O.other
              (by decide) (by decide) certO8
          · intro h
            exact absurd h (by decide)
          · intro _
            decide
      · -- search move of the computer
        have hmk : 2 ≤ marksCount b := hm1 rfl
        have hnle : ¬ marksCount b ≤ 1 := by omega
        rw [selectMove_search aiM hnle] at hsel
        have hle9 : (emptyCells b).length ≤ 9 := by
          have := length_emptyCells_le b
          omega
        have hroot := minimax_root_spec 8 aiM b hev hle9
        obtain ⟨hsc, i0, hi0, h2, h3⟩ := hroot
        have h2b : (minimaxAux 9 aiM b aiM NEG_INF POS_INF).2 = some i0 := h2
        rw [h2b] at hsel
        injection hsel with hi2
        subst hi2
        have hsc9 : (minimaxAux 9 aiM b aiM NEG_INF POS_INF).1 = mmVal 9 aiM b aiM := hsc
        have h39 : mmVal 8 aiM (b.set i0 (some aiM)) aiM.other =
            (minimaxAux 9 aiM b aiM NEG_INF POS_INF).1 := h3
        have hv9 : 0 ≤ mmVal 9 aiM b aiM := by
          have hirr := mmVal_fuel_irrel (emptyCells b).length 9 aiM b aiM (le_refl _) hle9
          omega
        have hvchild : 0 ≤ mmVal 8 aiM (b.set i0 (some aiM)) aiM.other := by omega
        have hchild8 : (emptyCells (b.set i0 (some aiM))).length ≤ 8 :=
          child_emptyCells_le aiM hi0 hle9
        refine ⟨by rw [List.length_set]; exact h9, Or.inr (Or.inr ⟨?_, ?_, ?_⟩)⟩
        · have hirr2 := mmVal_fuel_irrel 8 (emptyCells (b.set i0 (some aiM))).length aiM
            (b.set i0 (some aiM)) aiM.other hchild8 (le_refl _)
          omega
        · intro h
          exact absurd h (Mark.other_ne aiM)
        · intro _
          rw [marksCount_child aiM hi0]
          omega
  | @oppStep b cur i hgame hne hev hi ih =>
      obtain ⟨h9, hd⟩ := ih
      rcases hd with ⟨hb, hcurX⟩ | ⟨haiO, hcurO, k, hk, hb⟩ | ⟨hval, hm1, hm2⟩
      · -- first move of the opponent on the empty board: the computer is O
        subst hb
        subst hcurX
        cases aiM with
        | X => exact absurd rfl hne
        | O =>
            refine ⟨by rw [List.length_set]; rfl, Or.inr (Or.inl ⟨rfl, rfl, i, hi, rfl⟩)⟩
      · -- impossible: these positions have the computer to move
        rw [haiO] at hne
        exact absurd hcurO hne
      · -- any opponent move keeps the value non-negative
        have hnenil := evaluateBoard_ongoing_ne_nil hev
        have hpos : 0 < (emptyCells b).length := List.length_pos.mpr hnenil
        obtain ⟨kk, hkk⟩ : ∃ kk, (emptyCells b).length = kk + 1 :=
          ⟨(emptyCells b).length - 1, by omega⟩
        rw [hkk] at hval
        have hchildlen : (emptyCells (b.set i (some cur))).length = kk := by
          have := length_emptyCells_set cur (mem_emptyCells hi).2 (mem_emptyCells hi).1
          omega
        have hge := mmVal_opp_child_ge hev kk hne hi
        refine ⟨by rw [List.length_set]; exact h9, Or.inr (Or.inr ⟨?_, ?_, ?_⟩)⟩
        · rw [hchildlen]
          omega
        · intro _
          rw [marksCount_child cur hi]
          have := hm2 hne
          omega
        · intro hneq
          exact absurd (Mark.other_eq_of_ne hne) hneq

/-- In every game played by the selector, a completed line can only
belong to the computer. -/
theorem AIGame_won_mark {aiM : Mark} {b : Board} {cur m : Mark} {l : Line}
    (hg : AIGame aiM b cur) (hw : evaluateBoard b = Outcome.won m l) : m = aiM := by
  obtain ⟨h9, hd⟩ := AIGame_inv hg
  rcases hd with ⟨hb, _⟩ | ⟨haiO, hcurO, k, hk, hb⟩ | ⟨hval, _, _⟩
  · subst hb
    rw [show evaluateBoard emptyBoard = Outcome.ongoing from rfl] at hw
    exact Outcome.noConfusion hw
  · subst hb
    have hk2 : k ∈ ([0, 1, 2, 3, 4, 5, 6, 7, 8] : List Nat) := hk
    have hall : ∀ k2 ∈ ([0, 1, 2, 3, 4, 5, 6, 7, 8] : List Nat),
        evaluateBoard (emptyBoard.set k2 (some Mark.X)) = Outcome.ongoing := by decide
    rw [hall k hk2] at hw
    exact Outcome.noConfusion hw
  · rw [mmVal_won hw] at hval
    by_cases hm : m = aiM
    · exact hm
    · rw [if_neg hm] at hval
      exact absurd hval (by decide)

/-! ## The evaluator against its specification -/

theorem lineFilledWith_unique {b : Board} {l : Line} {m m2 : Mark}
    (h1 : lineFilledWith b l m) (h2 : lineFilledWith b l m2) : m = m2 := by
  have := h1.1.symm.trans h2.1
  exact Option.some.inj this

theorem lineWinner_iff {b : Board} {l : Line} {m : Mark} :
    lineWinner b l = some m ↔ lineFilledWith b l m := by
  unfold lineWinner lineFilledWith
  cases hc : cellAt b l.1 with
  | none => simp
  | some m2 =>
      show (if cellAt b l.2.1 = some m2 ∧ cellAt b l.2.2 = some m2
          then some m2 else none) = some m ↔
        some m2 = some m ∧ cellAt b l.2.1 = some m ∧ cellAt b l.2.2 = some m
      by_cases h2 : cellAt b l.2.1 = some m2 ∧ cellAt b l.2.2 = some m2
      · rw [if_pos h2]
        constructor
        · intro hm
          have hm2 : m2 = m := Option.some.inj hm
          subst hm2
          exact ⟨rfl, h2.1, h2.2⟩
        · intro ⟨hm, _, _⟩
          exact hm
      · rw [if_neg h2]
        constructor
        · intro hm
          exact Option.noConfusion hm
        · intro ⟨hm, hb2, hc2⟩
          have hm2 : m2 = m := Option.some.inj hm
          subst hm2
          exact absurd ⟨hb2, hc2⟩ h2

theorem evalLines_some_iff {b : Board} :
    ∀ (ls : List Line) (m : Mark) (l : Line),
      evalLines b ls = some (m, l) ↔
        (ls.find? (fun l2 => decide (∃ m2, lineFilledWith b l2 m2)) = some l ∧
          lineFilledWith b l m) := by
  intro ls
  induction ls with
  | nil =>
      intro m l
      constructor
      · intro h; exact Option.noConfusion h
      · intro ⟨h, _⟩; exact Option.noConfusion h
  | cons l0 rest ih =>
      intro m l
      rw [evalLines]
      cases hw : lineWinner b l0 with
      | some m0 =>
          have hfill : lineFilledWith b l0 m0 := lineWinner_iff.mp hw
          have hpred : (fun l2 => decide (∃ m2, lineFilledWith b l2 m2)) l0 = true := by
            simp only [decide_eq_true_eq]
            exact ⟨m0, hfill⟩
          have hfindpos : (l0 :: rest).find?
              (fun l2 => decide (∃ m2, lineFilledWith b l2 m2)) = some l0 :=
            @List.find?_cons_of_pos Line
              (fun l2 => decide (∃ m2, lineFilledWith b l2 m2)) l0 rest hpred
          rw [hfindpos]
          constructor
          · intro h
            injection h with hpair
            injection hpair with hm hl
            subst hm; subst hl
            exact ⟨rfl, hfill⟩
          · intro ⟨hfind, hfl⟩
            have hl : l0 = l := Option.some.inj hfind
            subst hl
            have hm : m0 = m := lineFilledWith_unique hfill hfl
            subst hm
            rfl
      | none =>
          have hpred : (fun l2 => decide (∃ m2, lineFilledWith b l2 m2)) l0 = false := by
            simp only [decide_eq_false_iff_not]
            intro ⟨m2, hfill⟩
            exact Option.noConfusion (hw.symm.trans (lineWinner_iff.mpr hfill))
          have hfindneg : (l0 :: rest).find?
              (fun l2 => decide (∃ m2, lineFilledWith b l2 m2)) =
                rest.find? (fun l2 => decide (∃ m2, lineFilledWith b l2 m2)) :=
            @List.find?_cons_of_neg Line
              (fun l2 => decide (∃ m2, lineFilledWith b l2 m2)) l0 rest
              (by simp [hpred])
          rw [hfindneg]
          exact ih m l

theorem evalLines_none_iff {b : Board} :
    ∀ (ls : List Line),
      evalLines b ls = none ↔
        ls.find? (fun l2 => decide (∃ m2, lineFilledWith b l2 m2)) = none := by
  intro ls
  induction ls with
  | nil => simp [evalLines]
  | cons l0 rest ih =>
      rw [evalLines]
      cases hw : lineWinner b l0 with
      | some m0 =>
          have hpred : (fun l2 => decide (∃ m2, lineFilledWith b l2 m2)) l0 = true := by
            simp only [decide_eq_true_eq]
            exact ⟨m0, lineWinner_iff.mp hw⟩
          have hfindpos : (l0 :: rest).find?
              (fun l2 => decide (∃ m2, lineFilledWith b l2 m2)) = some l0 :=
            @List.find?_cons_of_pos Line
              (fun l2 => decide (∃ m2, lineFilledWith b l2 m2)) l0 rest hpred
          rw [hfindpos]
          constructor
          · intro h; exact Option.noConfusion h
          · intro h; exact Option.noConfusion h
      | none =>
          have hpred : (fun l2 => decide (∃ m2, lineFilledWith b l2 m2)) l0 = false := by
            simp only [decide_eq_false_iff_not]
            intro ⟨m2, hfill⟩
            exact Option.noConfusion (hw.symm.trans (lineWinner_iff.mpr hfill))
          have hfindneg : (l0 :: rest).find?
              (fun l2 => decide (∃ m2, lineFilledWith b l2 m2)) =
                rest.find? (fun l2 => decide (∃ m2, lineFilledWith b l2 m2)) :=
            @List.find?_cons_of_neg Line
              (fun l2 => decide (∃ m2, lineFilledWith b l2 m2)) l0 rest
              (by simp [hpred])
          rw [hfindneg]
          exact ih

theorem exists_empty_of_not_all {b : Board}
    (h : b.all (fun c => c.isSome) = false) :
    ∃ i, i < b.length ∧ cellAt b i = none := by
  have hne : emptyCells b ≠ [] := by
    intro hnil
    rw [(emptyCellsAux_eq_nil b 0).mp hnil] at h
    exact Bool.noConfusion h
  cases hcs : emptyCells b with
  | nil => exact absurd hcs hne
  | cons i rest =>
      have : i ∈ emptyCells b := by rw [hcs]; exact List.mem_cons_self i rest
      exact ⟨i, (mem_emptyCells this).1, (mem_emptyCells this).2⟩

theorem evaluateBoard_won_iff {b : Board} {m : Mark} {l : Line} :
    evaluateBoard b = Outcome.won m l ↔ evalLines b WINS = some (m, l) := by
  unfold evaluateBoard
  cases hev : evalLines b WINS with
  | some ml =>
      obtain ⟨m0, l0⟩ := ml
      show Outcome.won m0 l0 = Outcome.won m l ↔ some (m0, l0) = some (m, l)
      constructor
      · intro h
        injection h with h1 h2
        subst h1
        subst h2
        rfl
      · intro h
        injection h with h1
        injection h1 with h2 h3
        subst h2
        subst h3
        rfl
  | none =>
      by_cases hall : b.all (fun c => c.isSome) = true
      · rw [if_pos hall]
        constructor
        · intro h; exact Outcome.noConfusion h
        · intro h; exact Option.noConfusion h
      · rw [if_neg hall]
        constructor
        · intro h; exact Outcome.noConfusion h
        · intro h; exact Option.noConfusion h

theorem evaluateBoard_draw_iff {b : Board} :
    evaluateBoard b = Outcome.draw ↔
      evalLines b WINS = none ∧ b.all (fun c => c.isSome) = true := by
  unfold evaluateBoard
  cases hev : evalLines b WINS with
  | some ml =>
      obtain ⟨m0, l0⟩ := ml
      show Outcome.won m0 l0 = Outcome.draw ↔ some (m0, l0) = none ∧ _
      constructor
      · intro h; exact Outcome.noConfusion h
      · intro ⟨h, _⟩; exact Option.noConfusion h
  | none =>
      by_cases hall : b.all (fun c => c.isSome) = true
      · rw [if_pos hall]
        exact ⟨fun _ => ⟨rfl, hall⟩, fun _ => rfl⟩
      · rw [if_neg hall]
        constructor
        · intro h; exact Outcome.noConfusion h
        · intro ⟨_, h⟩; exact absurd h hall

theorem evaluateBoard_ongoing_iff {b : Board} :
    evaluateBoard b = Outcome.ongoing ↔
      evalLines b WINS = none ∧ b.all (fun c => c.isSome) = false := by
  unfold evaluateBoard
  cases hev : evalLines b WINS with
  | some ml =>
      obtain ⟨m0, l0⟩ := ml
      show Outcome.won m0 l0 = Outcome.ongoing ↔ some (m0, l0) = none ∧ _
      constructor
      · intro h; exact Outcome.noConfusion h
      · intro ⟨h, _⟩; exact Option.noConfusion h
  | none =>
      by_cases hall : b.all (fun c => c.isSome) = true
      · rw [if_pos hall]
        constructor
        · intro h; exact Outcome.noConfusion h
        · intro ⟨_, h⟩
          rw [hall] at h
          exact Bool.noConfusion h
      · rw [if_neg hall]
        refine ⟨fun _ => ⟨rfl, ?_⟩, fun _ => rfl⟩
        cases hv : b.all (fun c => c.isSome) with
        | true => exact absurd hv hall
        | false => rfl

/-! ## The claims -/

/-- C1. Unbeatability: in every game in which the computer plays each
of its moves via the move selector (`aiMove`'s choice: opening shortcut
with 0 or 1 marks on the board, minimax otherwise) and the opponent
plays arbitrary legal moves, no reached position is won by the
opponent: a completed winning line always carries the computer's mark,
so every finished game is a computer win or a draw. -/
theorem unbeatable_ai {aiM : Mark} {b : Board} {cur : Mark}
    (hg : AIGame aiM b cur) :
    ∀ m l, evaluateBoard b = Outcome.won m l → m = aiM :=
  fun _ _ hw => AIGame_won_mark hg hw

/-- C2. Evaluator correctness: for every 9-cell board, `evaluateBoard`
returns `Won m l` exactly when `l` is the first line of `WINS` (rows,
columns, diagonals in that order) whose three cells all hold `m`;
`Draw` exactly when no line is completed and all 9 cells are non-empty;
and `Ongoing` exactly when no line is completed and some cell is
empty. -/
theorem evaluateBoard_spec (b : Board) (h9 : b.length = 9) :
    (∀ m l, evaluateBoard b = Outcome.won m l ↔
      (specFirstWin b = some l ∧ lineFilledWith b l m)) ∧
    (evaluateBoard b = Outcome.draw ↔
      (specFirstWin b = none ∧ ∀ i, i < 9 → cellAt b i ≠ none)) ∧
    (evaluateBoard b = Outcome.ongoing ↔
      (specFirstWin b = none ∧ ∃ i, i < 9 ∧ cellAt b i = none)) := by
  refine ⟨?_, ?_, ?_⟩
  · intro m l
    rw [evaluateBoard_won_iff]
    exact evalLines_some_iff WINS m l
  · rw [evaluateBoard_draw_iff]
    unfold specFirstWin
    constructor
    · intro ⟨hnone, hall⟩
      refine ⟨(evalLines_none_iff WINS).mp hnone, ?_⟩
      intro i hi
      exact (all_isSome_iff b).mp hall i (by omega)
    · intro ⟨hfind, hfull⟩
      refine ⟨(evalLines_none_iff WINS).mpr hfind, ?_⟩
      exact (all_isSome_iff b).mpr (fun i hilt => hfull i (by omega))
  · rw [evaluateBoard_ongoing_iff]
    unfold specFirstWin
    constructor
    · intro ⟨hnone, hnall⟩
      refine ⟨(evalLines_none_iff WINS).mp hnone, ?_⟩
      obtain ⟨i, hilt, hc⟩ := exists_empty_of_not_all hnall
      exact ⟨i, by omega, hc⟩
    · intro ⟨hfind, i, hi, hc⟩
      refine ⟨(evalLines_none_iff WINS).mpr hfind, ?_⟩
      cases hv : b.all (fun c => c.isSome) with
      | false => rfl
      | true =>
          exfalso
          exact (all_isSome_iff b).mp hv i (by omega) hc

/-- C3. Pruning soundness: on a board that is not won and has an empty
cell, the search with the `beta ≤ alpha` cutoff, started at the root
window `(-Infinity, Infinity)`, returns the same score as the search
without the cutoff. -/
theorem pruning_sound (aiM : Mark) (b : Board) (player : Mark)
    (h9 : b.length = 9)
    (hnw : ∀ m l, evaluateBoard b ≠ Outcome.won m l)
    (hne : ∃ i, i < 9 ∧ cellAt b i = none) :
    (minimaxAux 9 aiM b player NEG_INF POS_INF).1 =
      (minimaxNP 9 aiM b player NEG_INF POS_INF).1 := by
  rw [minimaxNP_score_eq_mmVal]
  exact minimaxAux_score_full 9 aiM b player (by have := length_emptyCells_le b; omega)

/-- C4. Opening shortcut: on a board with 0 or 1 marks the selector
skips the search and returns the first empty index of the preference
order `[4,0,2,6,8,1,3,5,7]`; in particular it plays the center on the
empty board, for either computer mark. -/
theorem opening_shortcut_spec (b : Board) (aiM : Mark) (h9 : b.length = 9)
    (h1 : marksCount b ≤ 1) :
    selectMove b aiM = firstEmptyInPref b ∧ selectMove emptyBoard aiM = some 4 := by
  constructor
  · rw [selectMove_opening aiM h1]
    unfold firstEmptyInPref
    have hfun : (fun i => (cellAt b i).isNone) =
        (fun i => decide (cellAt b i = none)) := by
      funext i
      cases cellAt b i <;> rfl
    rw [hfun]
  · rw [selectMove_opening aiM (by decide)]
    decide

/-- C5. Terminal scoring: on a board whose evaluation is terminal,
`minimax` scores `+10` when the computer has won, `-10` when the
opponent has won, and `0` on a draw, for every fuel, player to move,
alpha and beta. -/
theorem terminal_scores (fuel : Nat) (aiM : Mark) (b : Board) (player : Mark)
    (alpha beta : Int) :
    (∀ m l, evaluateBoard b = Outcome.won m l →
      ((m = aiM → (minimaxAux fuel aiM b player alpha beta).1 = 10) ∧
        (m ≠ aiM → (minimaxAux fuel aiM b player alpha beta).1 = -10))) ∧
    (evaluateBoard b = Outcome.draw →
      (minimaxAux fuel aiM b player alpha beta).1 = 0) := by
  constructor
  · intro m l hw
    constructor
    · intro hm
      rw [minimaxAux_won hw, if_pos hm]
    · intro hm
      rw [minimaxAux_won hw, if_neg hm]
  · intro hd
    rw [minimaxAux_draw hd]

/-- C6. The search leaves the board unchanged: the state-threaded
`minimax` hands back the board buffer exactly as it received it — every
trial placement is undone, also when the loop exits through the pruning
break. -/
theorem search_restores_board (fuel : Nat) (aiM : Mark) (b : Board)
    (player : Mark) (alpha beta : Int) :
    (minimaxMut fuel aiM b player alpha beta).2 = b := by
  rw [minimaxMut_spec]

/-- C7. Move legality: on a 9-cell board with an empty cell whose
evaluation is neither Won nor Draw, the move selector returns the index
of an empty cell. -/
theorem selectMove_legal (b : Board) (aiM : Mark) (h9 : b.length = 9)
    (hnw : ∀ m l, evaluateBoard b ≠ Outcome.won m l)
    (hnd : evaluateBoard b ≠ Outcome.draw)
    (hne : ∃ i, i < 9 ∧ cellAt b i = none) :
    ∃ i, selectMove b aiM = some i ∧ cellAt b i = none := by
  have hev : evaluateBoard b = Outcome.ongoing := by
    cases hv : evaluateBoard b with
    | won m l => exact absurd hv (hnw m l)
    | draw => exact absurd hv hnd
    | ongoing => rfl
  by_cases h1 : marksCount b ≤ 1
  · rw [selectMove_opening aiM h1]
    cases hfind : openingOrder.find? (fun i => (cellAt b i).isNone) with
    | some j =>
        refine ⟨j, rfl, ?_⟩
        have := List.find?_some hfind
        cases hc : cellAt b j with
        | none => rfl
        | some mm => rw [hc] at this; exact Bool.noConfusion this
    | none =>
        exfalso
        have hnone := List.find?_eq_none.mp hfind
        obtain ⟨i, hilt, hc⟩ := hne
        have hmem : i ∈ openingOrder := by
          have : ∀ j, j < 9 → j ∈ openingOrder := by decide
          exact this i hilt
        have := hnone i hmem
        rw [hc] at this
        exact this rfl
  · rw [selectMove_search aiM h1]
    have hroot := minimax_root_spec 8 aiM b hev (by have := length_emptyCells_le b; omega)
    obtain ⟨_, i0, hi0, h2, _⟩ := hroot
    have h2b : (minimaxAux 9 aiM b aiM NEG_INF POS_INF).2 = some i0 := h2
    exact ⟨i0, h2b, (mem_emptyCells hi0).2⟩

/-- C8. Blocking scenario: on the board `[X,O,_, O,X,_, _,_,_]` with
the computer playing O, the selector returns index 8, blocking X's
0-4-8 diagonal. -/
theorem blocking_scenario :
    selectMove [some Mark.X, some Mark.O, none, some Mark.O, some Mark.X,
      none, none, none, none] Mark.O = some 8 := by
  decide

/-- C9. Termination: on a 9-cell board the fuelled `minimax` is stable
for every fuel of at least 9 — the recursion never exhausts a fuel of
9, because each recursive call strictly decreases the number of empty
cells. -/
theorem minimax_terminates (fuel : Nat) (aiM : Mark) (b : Board)
    (player : Mark) (alpha beta : Int) (h9 : b.length = 9) (hf : 9 ≤ fuel) :
    minimaxAux fuel aiM b player alpha beta =
      minimaxAux 9 aiM b player alpha beta := by
  have hle : (emptyCells b).length ≤ 9 := by
    have := length_emptyCells_le b
    omega
  exact minimaxAux_fuel_irrel fuel 9 aiM b player alpha beta (by omega) hle

/-- C10. The Infinity sentinels never escape: on a board with an empty
cell whose evaluation is neither Won nor Draw, the score of `minimax`
is exactly one of -10, 0, +10 — never the `-Infinity` or `+Infinity`
used to initialize the running best. -/
theorem score_never_infinite (aiM : Mark) (b : Board) (player : Mark)
    (alpha beta : Int) (h9 : b.length = 9)
    (hnw : ∀ m l, evaluateBoard b ≠ Outcome.won m l)
    (hne : ∃ i, i < 9 ∧ cellAt b i = none) :
    ((minimaxAux 9 aiM b player alpha beta).1 = -10 ∨
      (minimaxAux 9 aiM b player alpha beta).1 = 0 ∨
      (minimaxAux 9 aiM b player alpha beta).1 = 10) ∧
    (minimaxAux 9 aiM b player alpha beta).1 ≠ NEG_INF ∧
    (minimaxAux 9 aiM b player alpha beta).1 ≠ POS_INF := by
  have hmem := minimaxAux_score_mem 9 aiM b player alpha beta
    (by have := length_emptyCells_le b; omega)
  have hb := goodScore_bounds hmem
  have hN : NEG_INF = -1000 := rfl
  have hP : POS_INF = 1000 := rfl
  exact ⟨hmem, by omega, by omega⟩

/-! ## Witnesses -/

set_option maxRecDepth 100000 in
set_option maxHeartbeats 8000000 in
theorem unbeatable_ai_witness :
    evaluateBoard [some Mark.O, some Mark.X, some Mark.O, some Mark.X, some Mark.X,
      some Mark.O, none, some Mark.X, none] = Outcome.won Mark.X (1, 4, 7) ∧
    Mark.X = Mark.X := by
  have t0 : AIGame Mark.X emptyBoard Mark.X := AIGame.init
  have t1 := @AIGame.aiStep Mark.X emptyBoard 4 t0 (by decide) (by decide)
  have t2 := @AIGame.oppStep Mark.X (emptyBoard.set 4 (some Mark.X)) Mark.X.other 0
    t1 (by decide) (by decide) (by decide)
  have t3 := @AIGame.aiStep Mark.X
    ((emptyBoard.set 4 (some Mark.X)).set 0 (some Mark.X.other)) 1
    t2 (by decide) (by decide)
  have t4 := @AIGame.oppStep Mark.X
    (((emptyBoard.set 4 (some Mark.X)).set 0 (some Mark.X.other)).set 1 (some Mark.X))
    Mark.X.other 2 t3 (by decide) (by decide) (by decide)
  have t5 := @AIGame.aiStep Mark.X
    ((((emptyBoard.set 4 (some Mark.X)).set 0 (some Mark.X.other)).set 1
      (some Mark.X)).set 2 (some Mark.X.other)) 3
    t4 (by decide) (by decide)
  have t6 := @AIGame.oppStep Mark.X
    (((((emptyBoard.set 4 (some Mark.X)).set 0 (some Mark.X.other)).set 1
      (some Mark.X)).set 2 (some Mark.X.other)).set 3 (some Mark.X))
    Mark.X.other 5 t5 (by decide) (by decide) (by decide)
  have t7 := @AIGame.aiStep Mark.X
    ((((((emptyBoard.set 4 (some Mark.X)).set 0 (some Mark.X.other)).set 1
      (some Mark.X)).set 2 (some Mark.X.other)).set 3 (some Mark.X)).set 5
      (some Mark.X.other)) 7
    t6 (by decide) (by decide)
  exact ⟨by decide, unbeatable_ai t7 Mark.X (1, 4, 7) (by decide)⟩

theorem evaluateBoard_spec_witness :
    emptyBoard.length = 9 ∧
    (evaluateBoard emptyBoard = Outcome.ongoing ↔
      (specFirstWin emptyBoard = none ∧ ∃ i, i < 9 ∧ cellAt emptyBoard i = none)) :=
  ⟨rfl, (evaluateBoard_spec emptyBoard rfl).2.2⟩

theorem pruning_sound_witness :
    (minimaxAux 9 Mark.O [some Mark.X, some Mark.O, none, some Mark.O, some Mark.X,
      none, none, none, none] Mark.O NEG_INF POS_INF).1 =
    (minimaxNP 9 Mark.O [some Mark.X, some Mark.O, none, some Mark.O, some Mark.X,
      none, none, none, none] Mark.O NEG_INF POS_INF).1 :=
  pruning_sound Mark.O
    [some Mark.X, some Mark.O, none, some Mark.O, some Mark.X,
      none, none, none, none] Mark.O rfl
    (fun _ _ h => Outcome.noConfusion
      ((show evaluateBoard [some Mark.X, some Mark.O, none, some Mark.O, some Mark.X,
        none, none, none, none] = Outcome.ongoing from rfl).symm.trans h))
    ⟨2, by decide⟩

theorem opening_shortcut_spec_witness :
    marksCount emptyBoard ≤ 1 ∧
    (selectMove emptyBoard Mark.O = firstEmptyInPref emptyBoard ∧
      selectMove emptyBoard Mark.O = some 4) :=
  ⟨by decide, opening_shortcut_spec emptyBoard Mark.O rfl (by decide)⟩

theorem terminal_scores_witness :
    evaluateBoard [some Mark.X, some Mark.X, some Mark.X,
      none, none, none, none, none, none] = Outcome.won Mark.X (0, 1, 2) ∧
    (minimaxAux 5 Mark.X [some Mark.X, some Mark.X, some Mark.X,
      none, none, none, none, none, none] Mark.O 3 7).1 = 10 ∧
    (minimaxAux 5 Mark.O [some Mark.X, some Mark.X, some Mark.X,
      none, none, none, none, none, none] Mark.O 3 7).1 = -10 ∧
    (minimaxAux 5 Mark.O [some Mark.X, some Mark.O, some Mark.X, some Mark.O,
      some Mark.X, some Mark.O, some Mark.O, some Mark.X, some Mark.O]
      Mark.X 3 7).1 = 0 :=
  ⟨by decide,
    ((terminal_scores 5 Mark.X [some Mark.X, some Mark.X, some Mark.X,
      none, none, none, none, none, none] Mark.O 3 7).1 Mark.X (0, 1, 2)
      (by decide)).1 rfl,
    ((terminal_scores 5 Mark.O [some Mark.X, some Mark.X, some Mark.X,
      none, none, none, none, none, none] Mark.O 3 7).1 Mark.X (0, 1, 2)
      (by decide)).2 (by decide),
    (terminal_scores 5 Mark.O [some Mark.X, some Mark.O, some Mark.X, some Mark.O,
      some Mark.X, some Mark.O, some Mark.O, some Mark.X, some Mark.O]
      Mark.X 3 7).2 (by decide)⟩

theorem selectMove_legal_witness :
    ∃ i, selectMove [some Mark.X, some Mark.O, none, some Mark.O, some Mark.X,
      none, none, none, none] Mark.O = some i ∧
      cellAt [some Mark.X, some Mark.O, none, some Mark.O, some Mark.X,
        none, none, none, none] i = none :=
  selectMove_legal
    [some Mark.X, some Mark.O, none, some Mark.O, some Mark.X,
      none, none, none, none] Mark.O rfl
    (fun _ _ h => Outcome.noConfusion
      ((show evaluateBoard [some Mark.X, some Mark.O, none, some Mark.O, some Mark.X,
        none, none, none, none] = Outcome.ongoing from rfl).symm.trans h))
    (fun h => Outcome.noConfusion
      ((show evaluateBoard [some Mark.X, some Mark.O, none, some Mark.O, some Mark.X,
        none, none, none, none] = Outcome.ongoing from rfl).symm.trans h))
    ⟨2, by decide⟩

theorem minimax_terminates_witness :
    (9 : Nat) ≤ 11 ∧
    minimaxAux 11 Mark.X emptyBoard Mark.X (-3) 3 =
      minimaxAux 9 Mark.X emptyBoard Mark.X (-3) 3 :=
  ⟨by decide, minimax_terminates 11 Mark.X emptyBoard Mark.X (-3) 3 rfl (by decide)⟩

theorem score_never_infinite_witness :
    ((minimaxAux 9 Mark.O [some Mark.X, some Mark.O, none, some Mark.O, some Mark.X,
      none, none, none, none] Mark.O (-20) 20).1 = -10 ∨
      (minimaxAux 9 Mark.O [some Mark.X, some Mark.O, none, some Mark.O, some Mark.X,
        none, none, none, none] Mark.O (-20) 20).1 = 0 ∨
      (minimaxAux 9 Mark.O [some Mark.X, some Mark.O, none, some Mark.O, some Mark.X,
        none, none, none, none] Mark.O (-20) 20).1 = 10) ∧
    (minimaxAux 9 Mark.O [some Mark.X, some Mark.O, none, some Mark.O, some Mark.X,
      none, none, none, none] Mark.O (-20) 20).1 ≠ NEG_INF ∧
    (minimaxAux 9 Mark.O [some Mark.X, some Mark.O, none, some Mark.O, some Mark.X,
      none, none, none, none] Mark.O (-20) 20).1 ≠ POS_INF :=
  score_never_infinite Mark.O
    [some Mark.X, some Mark.O, none, some Mark.O, some Mark.X,
      none, none, none, none] Mark.O (-20) 20 rfl
    (fun _ _ h => Outcome.noConfusion
      ((show evaluateBoard [some Mark.X, some Mark.O, none, some Mark.O, some Mark.X,
        none, none, none, none] = Outcome.ongoing from rfl).symm.trans h))
    ⟨2, by decide⟩
